import Mathlib

/-! Cache simulator (`csim.c`): shallow embedding and verified properties.

The C program simulates a set-associative cache with LRU replacement.
This file embeds its data model and functions in Lean and proves properties
of them.

Modelling conventions.

* A C `int` is a Lean `Int`.  Signed overflow is undefined in C, so the model
  describes the executions in which no `int` computation overflows; there C
  arithmetic and `Int` arithmetic agree.
* `line *lines` (an array of `E` lines) is a `List line`; the loops
  `for (i = 0; i < E; i++)` are traversals of that list, and `E` is its length.
* `set *sets` is a list of sets.  An access outside an array has no defined
  behaviour in C; functions that may perform one return `Option`, with `none`
  standing for "the execution leaves defined behaviour".
* Mutation through pointers is explicit state passing: a function that
  updates the cache returns the new cache next to its C return value.
-/

namespace Csim

/-! ## Data model -/

/-- One cache line: `struct _line`. -/
structure line where
  valid : Bool
  tag : Int
  last_used : Int
deriving DecidableEq, Repr

/-- The simulator: `struct _csim`.  `sets[i]` is the list of lines of set `i`
(the C `struct _set` only wraps the pointer to them).  The fields `E`, `s`, `b`
are the ones of the C struct; the scans below run over the whole list of a set,
whose length stands for `sim->E`. -/
structure csim where
  sets : List (List line)
  E : Int
  s : Int
  b : Int
deriving DecidableEq, Repr

/-- The enumeration `cache_status`, in declaration order. -/
inductive cache_status where
  | HIT
  | MISS
  | MISSHIT
  | MISSEVICTION
  | MISSEVICTIONHIT
  | HITHIT
deriving DecidableEq, Repr

open cache_status

/-- The record `status`: last outcome, verbosity flag and the three counters. -/
structure status where
  cs : cache_status
  verbose : Int
  hit : Int
  miss : Int
  evictions : Int
deriving DecidableEq, Repr

/-! ## Scans over one set -/

/-- Loop of `find_max`: `max` is the running maximum, the list holds the lines
not yet visited. -/
def find_max_loop (max : Int) : List line → Int
  | [] => max
  | c_line :: rest =>
    if c_line.valid && decide (max < c_line.last_used) then
      find_max_loop c_line.last_used rest
    else
      find_max_loop max rest

/-- `find_max`: the highest `last_used` among the valid lines, starting the
scan from `max = -1`. -/
def find_max (s : List line) : Int :=
  find_max_loop (-1) s

/-- Loop of `find_empty`: `i` is the index of the head of the list. -/
def find_empty_loop (i : Int) : List line → Int
  | [] => -1
  | c_line :: rest =>
    if !c_line.valid then i else find_empty_loop (i + 1) rest

/-- `find_empty`: index of the first line that is not valid, `-1` if none. -/
def find_empty (s : List line) : Int :=
  find_empty_loop 0 s

/-- Loop of `find_lru` from index `i` on: `min_line` and `min` are the running
index and value of the minimum. -/
def find_lru_loop (i : Nat) (min_line : Nat) (min : Int) : List line → Nat
  | [] => min_line
  | c_line :: rest =>
    if decide (c_line.last_used < min) && c_line.valid then
      find_lru_loop (i + 1) i c_line.last_used rest
    else
      find_lru_loop (i + 1) min_line min rest

/-- `find_lru`: starts from line 0 and scans lines `1 .. E-1`.  Reading
`lines[0]` of a set without lines is out of bounds: `none`. -/
def find_lru : List line → Option Nat
  | [] => none
  | c_line :: rest => some (find_lru_loop 1 0 c_line.last_used rest)

/-- First loop of `load`: index of the first line with `tag == tag && valid`,
where `i` is the index of the head of the list. -/
def load_scan (tag : Int) (i : Nat) : List line → Option Nat
  | [] => none
  | c_line :: rest =>
    if decide (c_line.tag = tag) && c_line.valid then some i
    else load_scan tag (i + 1) rest

/-! ## Probing the cache -/

/-- Body of `load` once `c_set = &sim->sets[nset]` is fixed: returns the
outcome and the updated lines of the set. -/
def load_set (c_set : List line) (tag : Int) : Option (cache_status × List line) :=
  let max := find_max c_set
  match load_scan tag 0 c_set with
  | some i =>
    some (HIT, c_set.modify (fun c_line => { c_line with last_used := max + 1 }) i)
  | none =>
    let empty_line := find_empty c_set
    if empty_line ≠ -1 then
      some (MISS, c_set.set empty_line.toNat
        { valid := true, tag := tag, last_used := if max = -1 then 1 else max + 1 })
    else
      match find_lru c_set with
      | none => none
      | some index =>
        some (MISSEVICTION, c_set.set index
          { valid := true, tag := tag, last_used := max + 1 })

/-- `load`: probe set `nset` of the cache for `tag`.  An index outside the
array of sets is an out-of-bounds access: `none`. -/
def load (sim : csim) (nset : Int) (tag : Int) : Option (cache_status × csim) :=
  if nset < 0 then none
  else
    match sim.sets[nset.toNat]? with
    | none => none
    | some c_set =>
      match load_set c_set tag with
      | none => none
      | some (ret, lines) =>
        some (ret, { sim with sets := sim.sets.set nset.toNat lines })

/-- `modify`: one call of `load`, whose outcome is mapped to the combined
outcome.  The final `return -1` is no enumerator of `cache_status`; it is
modelled by `none` and is never reached (see `load_set_status`). -/
def modify (sim : csim) (st : Int) (tag : Int) : Option (cache_status × csim) :=
  match load sim st tag with
  | none => none
  | some (ret, sim1) =>
    if ret = MISS then some (MISSHIT, sim1)
    else if ret = HIT then some (HITHIT, sim1)
    else if ret = MISSEVICTION then some (MISSEVICTIONHIT, sim1)
    else none

/-- `store`: a store is a load. -/
def store (sim : csim) (st : Int) (tag : Int) : Option (cache_status × csim) :=
  load sim st tag

/-! ## Address decoding -/

/-- Right shift of a 64-bit unsigned value; a count outside `0 .. 63` has no
defined behaviour in C. -/
def shr64 (x : Nat) (c : Int) : Option Nat :=
  if 0 ≤ c ∧ c < 64 then some (x >>> c.toNat) else none

/-- Left shift of a 64-bit unsigned value, reduced modulo `2^64`; a count
outside `0 .. 63` has no defined behaviour in C. -/
def shl64 (x : Nat) (c : Int) : Option Nat :=
  if 0 ≤ c ∧ c < 64 then some ((x <<< c.toNat) % 2 ^ 64) else none

/-- Conversion of a 64-bit unsigned value to `int`: the low 32 bits, read in
two's complement (the conversion of gcc and clang; the C standard leaves the
out-of-range case to the implementation). -/
def to_int (x : Nat) : Int :=
  if x % 2 ^ 32 < 2 ^ 31 then (x % 2 ^ 32 : Nat) else (x % 2 ^ 32 : Nat) - 2 ^ 32

/-- `parse_input`: splits the address with the masks built from
`temp = 0xFFFFFFFFFFFFFFFF`; returns `(tag, set, offset)` as stored in the
three `int` results.  `addr` is the 64-bit pattern of the `long` argument. -/
def parse_input (addr : Nat) (s : Int) (b : Int) : Option (Int × Int × Int) :=
  let temp : Nat := 0xFFFFFFFFFFFFFFFF
  match shr64 temp (64 - b) with
  | none => none
  | some m_off =>
    let offset := to_int (addr % 2 ^ 64 &&& m_off)
    match shr64 temp (64 - s) with
    | none => none
    | some m_s =>
      match shl64 m_s b with
      | none => none
      | some m_set =>
        match shr64 (addr % 2 ^ 64 &&& m_set) b with
        | none => none
        | some v_set =>
          let set := to_int v_set
          match shl64 temp (b + s) with
          | none => none
          | some m_tag =>
            let tag := to_int (addr % 2 ^ 64 &&& m_tag)
            some (tag, set, offset)

/-! ## Statistics and the trace loop -/

/-- `get_status`: updates the counters from the outcome stored in `stat->cs`
and returns the text of that outcome. -/
def get_status (stat : status) : status × String :=
  match stat.cs with
  | MISS => ({ stat with miss := stat.miss + 1 }, "miss")
  | HIT => ({ stat with hit := stat.hit + 1 }, "hit")
  | HITHIT => ({ stat with hit := stat.hit + 1 + 1 }, "hit hit")
  | MISSHIT => ({ stat with miss := stat.miss + 1, hit := stat.hit + 1 }, "miss hit")
  | MISSEVICTION =>
    ({ stat with miss := stat.miss + 1, evictions := stat.evictions + 1 }, "miss eviction")
  | MISSEVICTIONHIT =>
    ({ stat with miss := stat.miss + 1, hit := stat.hit + 1, evictions := stat.evictions + 1 },
      "miss eviction hit")

/-- One line of the trace file as the loop of `simulate` sees it: either a line
whose first character is `I`, or a line on which `sscanf` read the operation
character, the hexadecimal address and the size. -/
inductive trace_line where
  | instr
  | access (op : Char) (addr : Nat) (size : Int)
deriving DecidableEq, Repr

/-- The part of one iteration of `simulate` that follows the decoding of the
address: the dispatch on the operation character, then the unconditional call
of `get_status`. -/
def simulate_access (sim : csim) (stat : status) (op : Char) (set : Int) (tag : Int) :
    Option (csim × status) :=
  let probe : Option (csim × status) :=
    if op = 'L' then
      (load sim set tag).map fun r => (r.2, { stat with cs := r.1 })
    else if op = 'M' then
      (modify sim set tag).map fun r => (r.2, { stat with cs := r.1 })
    else if op = 'S' then
      (store sim set tag).map fun r => (r.2, { stat with cs := r.1 })
    else some (sim, stat)
  probe.map fun r => (r.1, (get_status r.2).1)

/-- One iteration of the `while` loop of `simulate` (the verbose printing is
left out): a line starting with `I` is skipped, any other line is decoded by
`parse_input` and dispatched. -/
def simulate_step (sim : csim) (stat : status) : trace_line → Option (csim × status)
  | trace_line.instr => some (sim, stat)
  | trace_line.access op addr _ =>
    match parse_input addr sim.s sim.b with
    | none => none
    | some (tag, set, _) => simulate_access sim stat op set tag

/-- The loop of `simulate` over the lines of the trace. -/
def simulate (sim : csim) (stat : status) : List trace_line → Option (csim × status)
  | [] => some (sim, stat)
  | l :: rest =>
    match simulate_step sim stat l with
    | none => none
    | some r => simulate r.1 r.2 rest

/-! ## Initialisation -/

/-- `initialize_sim`: allocates `nosets = 2 << (s - 1)` sets of `E` lines each and
zeroes every line.  The shift of the `int` value 2 is defined for a count in
`0 .. 29`: a negative count has no defined behaviour, and from 30 on the result
does not fit an `int`.  With a negative `E` the allocation size wraps and the
`memset` runs on a failed allocation; otherwise the allocations are taken to
succeed.  The pointer `sim->sets` found on entry is overwritten. -/
def initialize_sim (sim : csim) : Option csim :=
  if 0 ≤ sim.s - 1 ∧ sim.s - 1 ≤ 29 ∧ 0 ≤ sim.E then
    let nosets : Nat := 2 <<< (sim.s - 1).toNat
    some { sim with
           sets := List.replicate nosets
             (List.replicate sim.E.toNat { valid := false, tag := 0, last_used := 0 }) }
  else none

/-! ## Runs of accesses, and the quantities the invariants speak of -/

/-- A run of accesses `(op, set, tag)`, each dispatched and counted as in one
iteration of `simulate` after the decoding of the address. -/
def simulate_accesses (sim : csim) (stat : status) :
    List (Char × Int × Int) → Option (csim × status)
  | [] => some (sim, stat)
  | a :: rest =>
    match simulate_access sim stat a.1 a.2.1 a.2.2 with
    | none => none
    | some r => simulate_accesses r.1 r.2 rest

/-- Number of valid lines of a set. -/
def valid_count : List line → Nat
  | [] => 0
  | l :: rest => (if l.valid = true then 1 else 0) + valid_count rest

/-- Number of valid lines of the cache. -/
def valid_total : List (List line) → Nat
  | [] => 0
  | c :: rest => valid_count c + valid_total rest

/-- Number of records of the trace whose operation character is `op`. -/
def op_count (op : Char) : List trace_line → Nat
  | [] => 0
  | trace_line.instr :: rest => op_count op rest
  | trace_line.access o _ _ :: rest => (if o = op then 1 else 0) + op_count op rest

/-! ## Sequences of probes and states used in the proofs -/

/-- A cache with one set of one line that has never been filled. -/
def fresh_one : csim :=
  { sets := [[{ valid := false, tag := 0, last_used := 0 }]], E := 1, s := 1, b := 1 }

/-- A set of two lines, the first filled with tag 7 at recency 1, the second
never filled. -/
def half_two_set : List line :=
  [{ valid := true, tag := 7, last_used := 1 }, { valid := false, tag := 0, last_used := 0 }]

/-- A cache whose only set is `half_two_set`. -/
def half_two : csim :=
  { sets := [half_two_set], E := 2, s := 1, b := 1 }

/-- A full set of two lines, tags 7 and 8, recencies 3 and 2. -/
def full_two_set : List line :=
  [{ valid := true, tag := 7, last_used := 3 }, { valid := true, tag := 8, last_used := 2 }]

/-- A cache whose only set is `full_two_set`. -/
def full_two : csim :=
  { sets := [full_two_set], E := 2, s := 1, b := 1 }

/-- An all-invalid set of three lines. -/
def three_invalid_set : List line :=
  List.replicate 3 { valid := false, tag := 0, last_used := 0 }

/-- A cache whose only set is `three_invalid_set`. -/
def three_invalid : csim :=
  { sets := [three_invalid_set], E := 3, s := 1, b := 1 }

/-- The cache of geometry `s = 2, E = 1, b = 4` as `initialize_sim` leaves it:
four sets of one line, every line zeroed. -/
def fresh_2_1_4 : csim :=
  { sets := List.replicate 4 [{ valid := false, tag := 0, last_used := 0 }],
    E := 1, s := 2, b := 4 }

/-- The record `stat` of `main` before the simulation: the counters are set to
zero by the initialiser, and the member `cs`, not named there, is zero as well,
which is the enumerator `HIT`. -/
def zero_status : status :=
  { cs := HIT, verbose := 0, hit := 0, miss := 0, evictions := 0 }

/-- Successive probes of one set of the cache, one per tag of the list: the
outcomes in order and the cache left by the last probe. -/
def load_all (sim : csim) (nset : Int) : List Int → Option (List cache_status × csim)
  | [] => some ([], sim)
  | tag :: rest =>
    match load sim nset tag with
    | none => none
    | some (ret, sim1) =>
      match load_all sim1 nset rest with
      | none => none
      | some (rets, sim2) => some (ret :: rets, sim2)

/-- The lines obtained by filling with the tags `ts` in order, the first of them
at recency `k + 1`. -/
def filled (k : Int) : List Int → List line
  | [] => []
  | t :: ts => { valid := true, tag := t, last_used := k + 1 } :: filled (k + 1) ts

/-- The set left by the LRU scenario: line 0 holds the refreshed first tag,
line 1 the new tag, the other lines the tags `mid` in order. -/
def lru_final (t1 tnew : Int) (mid : List Int) : List line :=
  { valid := true, tag := t1, last_used := (mid.length : Int) + 2 + 1 } ::
  { valid := true, tag := tnew, last_used := (mid.length : Int) + 2 + 1 + 1 } ::
  filled 2 mid

/-- Invariant of a set reached from the zeroed state: valid lines have a recency
of at least 1, invalid lines still have recency 0, and two valid lines at
different indices differ both in recency and in tag. -/
def recency_inv (c_set : List line) : Prop :=
  (∀ l ∈ c_set, l.valid = true → 1 ≤ l.last_used) ∧
  (∀ l ∈ c_set, l.valid = false → l.last_used = 0) ∧
  (∀ (i j : Nat) (li lj : line), c_set[i]? = some li → c_set[j]? = some lj →
    li.valid = true → lj.valid = true →
    (li.last_used = lj.last_used ∨ li.tag = lj.tag) → i = j)

/-- The cache of geometry `s = 2, E = 1, b = 4` after a load of tag 0 and a
modify of tag 64 in set 1. -/
def used_2_1_4 : csim :=
  { sets := [[{ valid := false, tag := 0, last_used := 0 }],
             [{ valid := true, tag := 64, last_used := 2 }],
             [{ valid := false, tag := 0, last_used := 0 }],
             [{ valid := false, tag := 0, last_used := 0 }]],
    E := 1, s := 2, b := 4 }

/-! ## Lemmas on the scans -/

theorem find_max_loop_ge (m0 : Int) (s : List line) : m0 ≤ find_max_loop m0 s := by
  induction s generalizing m0 with
  | nil => simp [find_max_loop]
  | cons c rest ih =>
    unfold find_max_loop
    split
    · rename_i h
      simp only [Bool.and_eq_true, decide_eq_true_eq] at h
      exact le_trans (le_of_lt h.2) (ih _)
    · exact ih _

theorem find_max_loop_ub (m0 : Int) (s : List line) :
    ∀ l ∈ s, l.valid = true → l.last_used ≤ find_max_loop m0 s := by
  induction s generalizing m0 with
  | nil => simp
  | cons c rest ih =>
    intro l hl hv
    unfold find_max_loop
    rcases List.mem_cons.mp hl with rfl | hl
    · split
      · exact find_max_loop_ge _ _
      · rename_i h
        simp only [Bool.and_eq_true, decide_eq_true_eq, not_and, not_lt] at h
        exact le_trans (h hv) (find_max_loop_ge _ _)
    · split
      · exact ih _ l hl hv
      · exact ih _ l hl hv

theorem find_max_loop_attained (m0 : Int) (s : List line) :
    find_max_loop m0 s = m0 ∨
      ∃ l ∈ s, l.valid = true ∧ l.last_used = find_max_loop m0 s := by
  induction s generalizing m0 with
  | nil => simp [find_max_loop]
  | cons c rest ih =>
    unfold find_max_loop
    split
    · rename_i h
      simp only [Bool.and_eq_true, decide_eq_true_eq] at h
      right
      rcases ih c.last_used with h1 | ⟨l, hl, hv, he⟩
      · exact ⟨c, List.mem_cons_self _ _, h.1, h1.symm⟩
      · exact ⟨l, List.mem_cons_of_mem _ hl, hv, he⟩
    · rcases ih m0 with h1 | ⟨l, hl, hv, he⟩
      · exact Or.inl h1
      · exact Or.inr ⟨l, List.mem_cons_of_mem _ hl, hv, he⟩

/-- Value of `find_max` when the valid lines have a largest recency `M`. -/
theorem find_max_eq_max (s : List line) (M : Int)
    (hub : ∀ l ∈ s, l.valid = true → l.last_used ≤ M)
    (hat : ∃ l ∈ s, l.valid = true ∧ l.last_used = M) :
    find_max s = max M (-1) := by
  obtain ⟨l, hl, hv, he⟩ := hat
  have h1 : M ≤ find_max s := he ▸ find_max_loop_ub (-1) s l hl hv
  have h2 : (-1 : Int) ≤ find_max s := find_max_loop_ge (-1) s
  rcases find_max_loop_attained (-1) s with h3 | ⟨k, hk, hkv, hke⟩
  · have h4 : find_max s = -1 := h3
    rw [h4] at h1 ⊢
    exact (max_eq_right h1).symm
  · have h4 : find_max s ≤ M := by
      have := hub k hk hkv
      rw [hke] at this
      exact this
    have h5 : find_max s = M := le_antisymm h4 h1
    rw [h5] at h2 ⊢
    exact (max_eq_left h2).symm

/-- Value of `find_max` when no valid line has a recency above `-1`. -/
theorem find_max_eq_neg_one (s : List line)
    (h : ∀ l ∈ s, l.valid = true → l.last_used ≤ -1) : find_max s = -1 := by
  rcases find_max_loop_attained (-1) s with h3 | ⟨k, hk, hkv, hke⟩
  · exact h3
  · have h1 := h k hk hkv
    have h2 : (-1 : Int) ≤ find_max s := find_max_loop_ge (-1) s
    have h3 : k.last_used = find_max s := hke
    omega

/-- A set with a valid line has a largest recency among its valid lines. -/
theorem exists_max_valid (s : List line) (h : ∃ l ∈ s, l.valid = true) :
    ∃ M, (∀ l ∈ s, l.valid = true → l.last_used ≤ M) ∧
      ∃ l ∈ s, l.valid = true ∧ l.last_used = M := by
  induction s with
  | nil => simp at h
  | cons c rest ih =>
    by_cases hr : ∃ l ∈ rest, l.valid = true
    · obtain ⟨M, hub, k, hk, hkv, hke⟩ := ih hr
      by_cases hc : c.valid = true ∧ M < c.last_used
      · refine ⟨c.last_used, ?_, c, List.mem_cons_self _ _, hc.1, rfl⟩
        intro l hl hv
        rcases List.mem_cons.mp hl with rfl | hl
        · exact le_refl _
        · exact le_trans (hub l hl hv) (le_of_lt hc.2)
      · refine ⟨M, ?_, k, List.mem_cons_of_mem _ hk, hkv, hke⟩
        intro l hl hv
        rcases List.mem_cons.mp hl with rfl | hl
        · by_contra hlt
          exact hc ⟨hv, not_le.mp hlt⟩
        · exact hub l hl hv
    · obtain ⟨l, hl, hv⟩ := h
      rcases List.mem_cons.mp hl with rfl | hl
      · refine ⟨l.last_used, ?_, l, List.mem_cons_self _ _, hv, rfl⟩
        intro k hk hkv
        rcases List.mem_cons.mp hk with rfl | hk
        · exact le_refl _
        · exact absurd ⟨k, hk, hkv⟩ hr
      · exact absurd ⟨l, hl, hv⟩ hr

theorem load_scan_none (tag : Int) (i : Nat) (s : List line) :
    load_scan tag i s = none ↔ ∀ l ∈ s, ¬ (l.valid = true ∧ l.tag = tag) := by
  induction s generalizing i with
  | nil => simp [load_scan]
  | cons c rest ih =>
    unfold load_scan
    split
    · rename_i h
      simp only [Bool.and_eq_true, decide_eq_true_eq] at h
      simp only [reduceCtorEq, false_iff]
      intro hall
      exact hall c (List.mem_cons_self _ _) ⟨h.2, h.1⟩
    · rename_i h
      simp only [Bool.and_eq_true, decide_eq_true_eq] at h
      rw [ih]
      constructor
      · intro hall l hl
        rcases List.mem_cons.mp hl with rfl | hl
        · exact fun hh => h ⟨hh.2, hh.1⟩
        · exact hall l hl
      · intro hall l hl
        exact hall l (List.mem_cons_of_mem _ hl)

theorem load_scan_some (tag : Int) (i : Nat) (s : List line) (k : Nat)
    (h : load_scan tag i s = some k) :
    ∃ j l, k = i + j ∧ s[j]? = some l ∧ l.valid = true ∧ l.tag = tag ∧
      ∀ j2 l2, j2 < j → s[j2]? = some l2 → ¬ (l2.valid = true ∧ l2.tag = tag) := by
  induction s generalizing i with
  | nil => simp [load_scan] at h
  | cons c rest ih =>
    unfold load_scan at h
    split at h
    · rename_i hc
      simp only [Bool.and_eq_true, decide_eq_true_eq] at hc
      refine ⟨0, c, ?_, by simp, hc.2, hc.1, ?_⟩
      · simp only [Option.some.injEq] at h
        omega
      · intro j2 l2 hj
        omega
    · rename_i hc
      simp only [Bool.and_eq_true, decide_eq_true_eq] at hc
      obtain ⟨j, l, hk, hj, hv, ht, hfirst⟩ := ih (i + 1) h
      refine ⟨j + 1, l, by omega, by simpa using hj, hv, ht, ?_⟩
      intro j2 l2 hlt h2
      cases j2 with
      | zero =>
        simp only [List.getElem?_cons_zero, Option.some.injEq] at h2
        subst h2
        exact fun hh => hc ⟨hh.2, hh.1⟩
      | succ j3 =>
        simp only [List.getElem?_cons_succ] at h2
        exact hfirst j3 l2 (by omega) h2

theorem find_empty_loop_none (i : Int) (hi : 0 ≤ i) (s : List line) :
    find_empty_loop i s = -1 ↔ ∀ l ∈ s, l.valid = true := by
  induction s generalizing i with
  | nil => simp [find_empty_loop]
  | cons c rest ih =>
    unfold find_empty_loop
    split
    · rename_i h
      simp only [Bool.not_eq_true', ] at h
      constructor
      · intro h1
        omega
      · intro hall
        have := hall c (List.mem_cons_self _ _)
        simp [h] at this
    · rename_i h
      simp only [Bool.not_eq_true', Bool.not_eq_false] at h
      rw [ih (i + 1) (by omega)]
      constructor
      · intro hall l hl
        rcases List.mem_cons.mp hl with rfl | hl
        · exact h
        · exact hall l hl
      · intro hall l hl
        exact hall l (List.mem_cons_of_mem _ hl)

theorem find_empty_loop_some (i : Int) (s : List line)
    (h : find_empty_loop i s ≠ -1) :
    ∃ (j : Nat) (l : line), find_empty_loop i s = i + j ∧ s[j]? = some l ∧ l.valid = false ∧
      ∀ j2 l2, j2 < j → s[j2]? = some l2 → l2.valid = true := by
  induction s generalizing i with
  | nil => simp [find_empty_loop] at h
  | cons c rest ih =>
    unfold find_empty_loop at h ⊢
    split
    · rename_i hc
      simp only [Bool.not_eq_true'] at hc
      refine ⟨0, c, by simp, by simp, hc, ?_⟩
      intro j2 l2 hj
      omega
    · rename_i hc
      simp only [hc, ↓reduceIte] at h
      simp only [Bool.not_eq_true', Bool.not_eq_false] at hc
      obtain ⟨j, l, he, hj, hv, hfirst⟩ := ih (i + 1) h
      refine ⟨j + 1, l, ?_, by simpa using hj, hv, ?_⟩
      · rw [he]
        push_cast
        ring
      · intro j2 l2 hlt h2
        cases j2 with
        | zero =>
          simp only [List.getElem?_cons_zero, Option.some.injEq] at h2
          subst h2
          exact hc
        | succ j3 =>
          simp only [List.getElem?_cons_succ] at h2
          exact hfirst j3 l2 (by omega) h2

theorem find_lru_loop_spec (i ml : Nat) (mn : Int) (s : List line)
    (hv : ∀ l ∈ s, l.valid = true) :
    (find_lru_loop i ml mn s = ml ∧ ∀ l ∈ s, mn ≤ l.last_used) ∨
    (∃ j l, find_lru_loop i ml mn s = i + j ∧ s[j]? = some l ∧ l.last_used < mn ∧
      (∀ l2 ∈ s, l.last_used ≤ l2.last_used) ∧
      ∀ j2 l2, j2 < j → s[j2]? = some l2 → l.last_used < l2.last_used) := by
  induction s generalizing i ml mn with
  | nil => simp [find_lru_loop]
  | cons c rest ih =>
    have hvr : ∀ l ∈ rest, l.valid = true := fun l hl => hv l (List.mem_cons_of_mem _ hl)
    have hvc : c.valid = true := hv c (List.mem_cons_self _ _)
    unfold find_lru_loop
    split
    · rename_i hc
      simp only [Bool.and_eq_true, decide_eq_true_eq] at hc
      right
      rcases ih (i + 1) i c.last_used hvr with ⟨he, hall⟩ | ⟨j, l, he, hj, hlt, hall, hfirst⟩
      · refine ⟨0, c, by simpa using he, by simp, hc.1, ?_, ?_⟩
        · intro l2 hl2
          rcases List.mem_cons.mp hl2 with rfl | hl2
          · exact le_refl _
          · exact hall l2 hl2
        · intro j2 l2 hj2
          omega
      · refine ⟨j + 1, l, by omega, by simpa using hj, lt_trans hlt hc.1, ?_, ?_⟩
        · intro l2 hl2
          rcases List.mem_cons.mp hl2 with rfl | hl2
          · exact le_of_lt hlt
          · exact hall l2 hl2
        · intro j2 l2 hj2 h2
          cases j2 with
          | zero =>
            simp only [List.getElem?_cons_zero, Option.some.injEq] at h2
            subst h2
            exact hlt
          | succ j3 =>
            simp only [List.getElem?_cons_succ] at h2
            exact hfirst j3 l2 (by omega) h2
    · rename_i hc
      simp only [Bool.and_eq_true, decide_eq_true_eq, not_and] at hc
      have hge : mn ≤ c.last_used := by
        by_contra hlt
        exact hc (not_le.mp hlt) hvc
      rcases ih (i + 1) ml mn hvr with ⟨he, hall⟩ | ⟨j, l, he, hj, hlt, hall, hfirst⟩
      · left
        refine ⟨he, ?_⟩
        intro l2 hl2
        rcases List.mem_cons.mp hl2 with rfl | hl2
        · exact hge
        · exact hall l2 hl2
      · right
        refine ⟨j + 1, l, by omega, by simpa using hj, hlt, ?_, ?_⟩
        · intro l2 hl2
          rcases List.mem_cons.mp hl2 with rfl | hl2
          · exact le_of_lt (lt_of_lt_of_le hlt hge)
          · exact hall l2 hl2
        · intro j2 l2 hj2 h2
          cases j2 with
          | zero =>
            simp only [List.getElem?_cons_zero, Option.some.injEq] at h2
            subst h2
            exact lt_of_lt_of_le hlt hge
          | succ j3 =>
            simp only [List.getElem?_cons_succ] at h2
            exact hfirst j3 l2 (by omega) h2

/-- On a set with at least one line, all valid, `find_lru` returns the lowest
index among the lines of smallest recency. -/
theorem find_lru_spec (s : List line) (hE : 1 ≤ s.length)
    (hv : ∀ l ∈ s, l.valid = true) :
    ∃ i victim, find_lru s = some i ∧ s[i]? = some victim ∧
      (∀ l ∈ s, victim.last_used ≤ l.last_used) ∧
      ∀ j l, j < i → s[j]? = some l → victim.last_used < l.last_used := by
  cases s with
  | nil => simp at hE
  | cons c rest =>
    have hvr : ∀ l ∈ rest, l.valid = true := fun l hl => hv l (List.mem_cons_of_mem _ hl)
    rcases find_lru_loop_spec 1 0 c.last_used rest hvr with
      ⟨he, hall⟩ | ⟨j, l, he, hj, hlt, hall, hfirst⟩
    · refine ⟨0, c, by simp [find_lru, he], by simp, ?_, ?_⟩
      · intro l2 hl2
        rcases List.mem_cons.mp hl2 with rfl | hl2
        · exact le_refl _
        · exact hall l2 hl2
      · intro j2 l2 hj2
        omega
    · refine ⟨1 + j, l, by simp [find_lru, he], ?_, ?_, ?_⟩
      · rw [Nat.add_comm]
        simpa using hj
      · intro l2 hl2
        rcases List.mem_cons.mp hl2 with rfl | hl2
        · exact le_of_lt hlt
        · exact hall l2 hl2
      · intro j2 l2 hj2 h2
        cases j2 with
        | zero =>
          simp only [List.getElem?_cons_zero, Option.some.injEq] at h2
          subst h2
          exact hlt
        | succ j3 =>
          simp only [List.getElem?_cons_succ] at h2
          exact hfirst j3 l2 (by omega) h2

/-! ## The three cases of a probe, on one set -/

theorem modify_eq_set_of_getElem? (f : line → line) (s : List line) (i : Nat) (a : line)
    (h : s[i]? = some a) : s.modify f i = s.set i (f a) := by
  induction s generalizing i with
  | nil => simp at h
  | cons c rest ih =>
    cases i with
    | zero =>
      simp only [List.getElem?_cons_zero, Option.some.injEq] at h
      subst h
      rfl
    | succ k =>
      simp only [List.getElem?_cons_succ] at h
      simp only [List.modify_succ_cons, List.set_cons_succ, ih k h]

theorem mem_of_getElem? (s : List line) (i : Nat) (a : line) (h : s[i]? = some a) : a ∈ s := by
  obtain ⟨hi, he⟩ := List.getElem?_eq_some_iff.mp h
  exact he ▸ List.getElem_mem hi

/-- Hit: the first valid line holding the tag gets recency `find_max + 1`. -/
theorem load_set_hit (c_set : List line) (tag : Int)
    (hres : ∃ l ∈ c_set, l.valid = true ∧ l.tag = tag) :
    ∃ i c_line, c_set[i]? = some c_line ∧ c_line.valid = true ∧ c_line.tag = tag ∧
      (∀ j l, j < i → c_set[j]? = some l → ¬ (l.valid = true ∧ l.tag = tag)) ∧
      load_set c_set tag =
        some (HIT, c_set.set i { c_line with last_used := find_max c_set + 1 }) := by
  cases hs : load_scan tag 0 c_set with
  | none =>
    obtain ⟨l, hl, hh⟩ := hres
    exact absurd hh ((load_scan_none tag 0 c_set).mp hs l hl)
  | some k =>
    obtain ⟨j, l, hk, hj, hv, ht, hfirst⟩ := load_scan_some tag 0 c_set k hs
    have hkj : k = j := by omega
    subst hkj
    refine ⟨k, l, hj, hv, ht, hfirst, ?_⟩
    simp only [load_set, hs]
    rw [modify_eq_set_of_getElem? _ c_set k l hj]

/-- Miss without eviction: the first invalid line is filled. -/
theorem load_set_miss (c_set : List line) (tag : Int)
    (habs : ∀ l ∈ c_set, ¬ (l.valid = true ∧ l.tag = tag))
    (hinv : ∃ l ∈ c_set, l.valid = false) :
    ∃ i c_line, c_set[i]? = some c_line ∧ c_line.valid = false ∧
      (∀ j l, j < i → c_set[j]? = some l → l.valid = true) ∧
      load_set c_set tag =
        some (MISS, c_set.set i
          { valid := true, tag := tag,
            last_used := if find_max c_set = -1 then 1 else find_max c_set + 1 }) := by
  have hs : load_scan tag 0 c_set = none := (load_scan_none tag 0 c_set).mpr habs
  have hne : find_empty c_set ≠ -1 := by
    intro h
    obtain ⟨l, hl, hv⟩ := hinv
    have := (find_empty_loop_none 0 (le_refl _) c_set).mp h l hl
    simp [hv] at this
  obtain ⟨j, l, he, hj, hv, hfirst⟩ := find_empty_loop_some 0 c_set hne
  have he2 : find_empty c_set = (j : Int) := by
    have : find_empty c_set = 0 + (j : Int) := he
    omega
  refine ⟨j, l, hj, hv, hfirst, ?_⟩
  simp only [load_set, hs]
  rw [if_pos hne, he2]
  simp

/-- Miss with eviction: the line found by `find_lru` is overwritten. -/
theorem load_set_evict (c_set : List line) (tag : Int) (hE : 1 ≤ c_set.length)
    (habs : ∀ l ∈ c_set, ¬ (l.valid = true ∧ l.tag = tag))
    (hfull : ∀ l ∈ c_set, l.valid = true) :
    ∃ i victim, c_set[i]? = some victim ∧
      (∀ l ∈ c_set, victim.last_used ≤ l.last_used) ∧
      (∀ j l, j < i → c_set[j]? = some l → victim.last_used < l.last_used) ∧
      load_set c_set tag =
        some (MISSEVICTION, c_set.set i
          { valid := true, tag := tag, last_used := find_max c_set + 1 }) := by
  have hs : load_scan tag 0 c_set = none := (load_scan_none tag 0 c_set).mpr habs
  have he : find_empty c_set = -1 := (find_empty_loop_none 0 (le_refl _) c_set).mpr hfull
  obtain ⟨i, victim, hl, hi, hmin, hfirst⟩ := find_lru_spec c_set hE hfull
  refine ⟨i, victim, hi, hmin, hfirst, ?_⟩
  simp only [load_set, hs, he, hl]
  simp

/-- A probe of a set with at least one line is defined and returns one of the
three single-probe outcomes. -/
theorem load_set_status (c_set : List line) (tag : Int) (hE : 1 ≤ c_set.length) :
    ∃ ret lines, load_set c_set tag = some (ret, lines) ∧
      (ret = HIT ∨ ret = MISS ∨ ret = MISSEVICTION) := by
  by_cases hres : ∃ l ∈ c_set, l.valid = true ∧ l.tag = tag
  · obtain ⟨i, c, _, _, _, _, h⟩ := load_set_hit c_set tag hres
    exact ⟨_, _, h, Or.inl rfl⟩
  · have habs : ∀ l ∈ c_set, ¬ (l.valid = true ∧ l.tag = tag) :=
      fun l hl hh => hres ⟨l, hl, hh⟩
    by_cases hinv : ∃ l ∈ c_set, l.valid = false
    · obtain ⟨i, c, _, _, _, h⟩ := load_set_miss c_set tag habs hinv
      exact ⟨_, _, h, Or.inr (Or.inl rfl)⟩
    · have hfull : ∀ l ∈ c_set, l.valid = true := by
        intro l hl
        by_contra hv
        exact hinv ⟨l, hl, by simpa using hv⟩
      obtain ⟨i, c, _, _, _, h⟩ := load_set_evict c_set tag hE habs hfull
      exact ⟨_, _, h, Or.inr (Or.inr rfl)⟩

/-- The probe of the cache is the probe of the addressed set, written back. -/
theorem load_eq (sim : csim) (nset tag : Int) (c_set : List line)
    (hn : 0 ≤ nset) (hset : sim.sets[nset.toNat]? = some c_set) :
    load sim nset tag =
      (load_set c_set tag).map fun r =>
        (r.1, { sim with sets := sim.sets.set nset.toNat r.2 }) := by
  unfold load
  rw [if_neg (by omega)]
  simp only [hset]
  cases load_set c_set tag with
  | none => rfl
  | some r => rfl

/-- After a defined probe the addressed set holds the lines the probe left. -/
theorem sets_after_set (sim : csim) (n : Nat) (c_set lines : List line)
    (hset : sim.sets[n]? = some c_set) :
    (sim.sets.set n lines)[n]? = some lines := by
  obtain ⟨hi, _⟩ := List.getElem?_eq_some_iff.mp hset
  simp [List.getElem?_set_self hi]

/-! ## Classification of a probe -/

/-- C1. On a set with at least one line, `load` returns HIT exactly when some
valid line holds the tag; MISS exactly when no valid line holds it and some
line is invalid; MISSEVICTION exactly when no valid line holds it and every
line is valid. -/
theorem load_classifies (sim : csim) (nset tag : Int) (c_set : List line)
    (hn : 0 ≤ nset) (hset : sim.sets[nset.toNat]? = some c_set) (hE : 1 ≤ c_set.length) :
    ∃ ret sim1, load sim nset tag = some (ret, sim1) ∧
      (ret = HIT ↔ ∃ l ∈ c_set, l.valid = true ∧ l.tag = tag) ∧
      (ret = MISS ↔
        (¬ ∃ l ∈ c_set, l.valid = true ∧ l.tag = tag) ∧ ∃ l ∈ c_set, l.valid = false) ∧
      (ret = MISSEVICTION ↔
        (¬ ∃ l ∈ c_set, l.valid = true ∧ l.tag = tag) ∧ ∀ l ∈ c_set, l.valid = true) := by
  rw [load_eq sim nset tag c_set hn hset]
  by_cases hres : ∃ l ∈ c_set, l.valid = true ∧ l.tag = tag
  · obtain ⟨i, c, _, _, _, _, h⟩ := load_set_hit c_set tag hres
    refine ⟨HIT, _, by rw [h]; rfl, ?_, ?_, ?_⟩
    · simp only [true_iff]; exact hres
    · simp only [reduceCtorEq, false_iff]; exact fun hh => hh.1 hres
    · simp only [reduceCtorEq, false_iff]; exact fun hh => hh.1 hres
  · have habs : ∀ l ∈ c_set, ¬ (l.valid = true ∧ l.tag = tag) :=
      fun l hl hh => hres ⟨l, hl, hh⟩
    by_cases hinv : ∃ l ∈ c_set, l.valid = false
    · obtain ⟨i, c, _, _, _, h⟩ := load_set_miss c_set tag habs hinv
      refine ⟨MISS, _, by rw [h]; rfl, ?_, ?_, ?_⟩
      · simp only [reduceCtorEq, false_iff]; exact hres
      · simp only [true_iff]; exact ⟨hres, hinv⟩
      · simp only [reduceCtorEq, false_iff]
        rintro ⟨_, hall⟩
        obtain ⟨l, hl, hv⟩ := hinv
        have := hall l hl
        simp [hv] at this
    · have hfull : ∀ l ∈ c_set, l.valid = true := by
        intro l hl
        by_contra hv
        exact hinv ⟨l, hl, by simpa using hv⟩
      obtain ⟨i, c, _, _, _, h⟩ := load_set_evict c_set tag hE habs hfull
      refine ⟨MISSEVICTION, _, by rw [h]; rfl, ?_, ?_, ?_⟩
      · simp only [reduceCtorEq, false_iff]; exact hres
      · simp only [reduceCtorEq, false_iff]; exact fun hh => hinv hh.2
      · simp only [true_iff]; exact ⟨hres, hfull⟩

/-- Instance of C1 on a one-line set that was never filled: the probe for tag 5
is classified, and its outcome is MISS. -/
theorem load_classifies_witness :
    ∃ ret sim1, load fresh_one 0 5 = some (ret, sim1) ∧ ret = MISS := by
  obtain ⟨ret, sim1, h, _, hmiss, _⟩ :=
    load_classifies fresh_one 0 5 [{ valid := false, tag := 0, last_used := 0 }]
      (by decide) (by rfl) (by decide)
  refine ⟨ret, sim1, h, hmiss.mpr ⟨?_, ?_⟩⟩
  · simp
  · exact ⟨_, List.mem_cons_self _ _, rfl⟩

/-! ## Eviction -/

/-- Eviction on a full set with arbitrary recencies: the recency written is
`find_max + 1`, and `find_max` is `max M (-1)` for the largest recency `M` of
the set, since the scan of `find_max` starts from -1. -/
theorem load_evict_general (sim : csim) (nset tag : Int) (c_set : List line)
    (hn : 0 ≤ nset) (hset : sim.sets[nset.toNat]? = some c_set) (hE : 1 ≤ c_set.length)
    (hfull : ∀ l ∈ c_set, l.valid = true) (habs : ∀ l ∈ c_set, l.tag ≠ tag) :
    ∃ i victim M, c_set[i]? = some victim ∧
      (∀ l ∈ c_set, victim.last_used ≤ l.last_used) ∧
      (∀ j l, j < i → c_set[j]? = some l → victim.last_used < l.last_used) ∧
      (∀ l ∈ c_set, l.last_used ≤ M) ∧ (∃ l ∈ c_set, l.last_used = M) ∧
      load sim nset tag = some (MISSEVICTION,
        { sim with
          sets := sim.sets.set nset.toNat
            (c_set.set i { valid := true, tag := tag, last_used := max M (-1) + 1 }) }) := by
  have habs2 : ∀ l ∈ c_set, ¬ (l.valid = true ∧ l.tag = tag) :=
    fun l hl hh => habs l hl hh.2
  obtain ⟨i, victim, hi, hmin, hfirst, h⟩ := load_set_evict c_set tag hE habs2 hfull
  have hex : ∃ l ∈ c_set, l.valid = true := by
    cases c_set with
    | nil => simp at hE
    | cons c rest => exact ⟨c, List.mem_cons_self _ _, hfull c (List.mem_cons_self _ _)⟩
  obtain ⟨M, hub, k, hk, hkv, hke⟩ := exists_max_valid c_set hex
  have hm : find_max c_set = max M (-1) := find_max_eq_max c_set M hub ⟨k, hk, hkv, hke⟩
  refine ⟨i, victim, M, hi, hmin, hfirst, fun l hl => hub l hl (hfull l hl), ⟨k, hk, hke⟩, ?_⟩
  rw [load_eq sim nset tag c_set hn hset, h, hm]
  rfl

/-- C2. On a full set (at least one line, all valid) that does not hold the
tag, `load` returns MISSEVICTION and overwrites exactly the line of smallest
recency, the one of lowest index among equals; the victim becomes
`(valid, tag, M + 1)` where `M` is the largest recency of the set before the
probe, and nothing else changes.  The recencies are non-negative, as they are
in every state of the simulator (`reachable_recency_nonneg`): `last_used` is
zeroed by `initialize_sim` and written by `load` only, with `max + 1 ≥ 0` or 1. -/
theorem load_evicts_lru (sim : csim) (nset tag : Int) (c_set : List line)
    (hn : 0 ≤ nset) (hset : sim.sets[nset.toNat]? = some c_set) (hE : 1 ≤ c_set.length)
    (hfull : ∀ l ∈ c_set, l.valid = true) (habs : ∀ l ∈ c_set, l.tag ≠ tag)
    (hnn : ∀ l ∈ c_set, l.valid = true → 0 ≤ l.last_used) :
    ∃ i victim M, c_set[i]? = some victim ∧
      (∀ l ∈ c_set, victim.last_used ≤ l.last_used) ∧
      (∀ j l, j < i → c_set[j]? = some l → victim.last_used < l.last_used) ∧
      (∀ l ∈ c_set, l.last_used ≤ M) ∧ (∃ l ∈ c_set, l.last_used = M) ∧
      load sim nset tag = some (MISSEVICTION,
        { sim with
          sets := sim.sets.set nset.toNat
            (c_set.set i { valid := true, tag := tag, last_used := M + 1 }) }) := by
  obtain ⟨i, victim, M, hi, hmin, hfirst, hub, ⟨k, hk, hke⟩, h⟩ :=
    load_evict_general sim nset tag c_set hn hset hE hfull habs
  have hM : max M (-1) = M := by
    have := hnn k hk (hfull k hk)
    exact max_eq_left (by omega)
  rw [hM] at h
  exact ⟨i, victim, M, hi, hmin, hfirst, hub, ⟨k, hk, hke⟩, h⟩

/-- Instance of C2 on a full two-line set with recencies 3 and 2, probed for
tag 9. -/
theorem load_evicts_lru_witness :
    ∃ i victim M, full_two_set[i]? = some victim ∧
      (∀ l ∈ full_two_set, victim.last_used ≤ l.last_used) ∧
      (∀ j l, j < i → full_two_set[j]? = some l → victim.last_used < l.last_used) ∧
      (∀ l ∈ full_two_set, l.last_used ≤ M) ∧ (∃ l ∈ full_two_set, l.last_used = M) ∧
      load full_two 0 9 = some (MISSEVICTION,
        { full_two with
          sets := full_two.sets.set 0
            (full_two_set.set i { valid := true, tag := 9, last_used := M + 1 }) }) :=
  load_evicts_lru full_two 0 9 full_two_set (by decide) (by rfl) (by decide) (by decide)
    (by decide) (by decide)

/-! ## Hit -/

/-- Hit on a set with arbitrary recencies: the recency written is
`find_max + 1`, and `find_max` is `max M (-1)` for the largest recency `M` over
the valid lines, since the scan of `find_max` starts from -1. -/
theorem load_hit_general (sim : csim) (nset tag : Int) (c_set : List line)
    (hn : 0 ≤ nset) (hset : sim.sets[nset.toNat]? = some c_set)
    (hres : ∃ l ∈ c_set, l.valid = true ∧ l.tag = tag) :
    ∃ i c_line M, c_set[i]? = some c_line ∧ c_line.valid = true ∧ c_line.tag = tag ∧
      (∀ j l, j < i → c_set[j]? = some l → ¬ (l.valid = true ∧ l.tag = tag)) ∧
      (∀ l ∈ c_set, l.valid = true → l.last_used ≤ M) ∧
      (∃ l ∈ c_set, l.valid = true ∧ l.last_used = M) ∧
      load sim nset tag = some (HIT,
        { sim with
          sets := sim.sets.set nset.toNat
            (c_set.set i { c_line with last_used := max M (-1) + 1 }) }) := by
  obtain ⟨i, c_line, hi, hv, ht, hfirst, h⟩ := load_set_hit c_set tag hres
  have hex : ∃ l ∈ c_set, l.valid = true := by
    obtain ⟨l, hl, hlv, _⟩ := hres
    exact ⟨l, hl, hlv⟩
  obtain ⟨M, hub, k, hk, hkv, hke⟩ := exists_max_valid c_set hex
  have hm : find_max c_set = max M (-1) := find_max_eq_max c_set M hub ⟨k, hk, hkv, hke⟩
  refine ⟨i, c_line, M, hi, hv, ht, hfirst, hub, ⟨k, hk, hkv, hke⟩, ?_⟩
  rw [load_eq sim nset tag c_set hn hset, h, hm]
  rfl

/-- C4. When some valid line holds the tag, `load` returns HIT and gives that
line (the first such line) the recency `M + 1`, where `M` is the largest
recency over the valid lines before the update; the tag and valid flag of that
line, the other lines of the set and the other sets are unchanged.  The
recencies of the valid lines are non-negative, as they are in every state of
the simulator (`reachable_recency_nonneg`). -/
theorem load_hit_refreshes (sim : csim) (nset tag : Int) (c_set : List line)
    (hn : 0 ≤ nset) (hset : sim.sets[nset.toNat]? = some c_set)
    (hres : ∃ l ∈ c_set, l.valid = true ∧ l.tag = tag)
    (hnn : ∀ l ∈ c_set, l.valid = true → 0 ≤ l.last_used) :
    ∃ i c_line M, c_set[i]? = some c_line ∧ c_line.valid = true ∧ c_line.tag = tag ∧
      (∀ j l, j < i → c_set[j]? = some l → ¬ (l.valid = true ∧ l.tag = tag)) ∧
      (∀ l ∈ c_set, l.valid = true → l.last_used ≤ M) ∧
      (∃ l ∈ c_set, l.valid = true ∧ l.last_used = M) ∧
      load sim nset tag = some (HIT,
        { sim with
          sets := sim.sets.set nset.toNat
            (c_set.set i { c_line with last_used := M + 1 }) }) := by
  obtain ⟨i, c_line, M, hi, hv, ht, hfirst, hub, ⟨k, hk, hkv, hke⟩, h⟩ :=
    load_hit_general sim nset tag c_set hn hset hres
  have hM : max M (-1) = M := by
    have := hnn k hk hkv
    exact max_eq_left (by omega)
  rw [hM] at h
  exact ⟨i, c_line, M, hi, hv, ht, hfirst, hub, ⟨k, hk, hkv, hke⟩, h⟩

/-- Instance of C4 on a full two-line set with recencies 3 and 2, probed for the
resident tag 8. -/
theorem load_hit_refreshes_witness :
    ∃ i c_line M, full_two_set[i]? = some c_line ∧ c_line.valid = true ∧ c_line.tag = 8 ∧
      (∀ j l, j < i → full_two_set[j]? = some l → ¬ (l.valid = true ∧ l.tag = 8)) ∧
      (∀ l ∈ full_two_set, l.valid = true → l.last_used ≤ M) ∧
      (∃ l ∈ full_two_set, l.valid = true ∧ l.last_used = M) ∧
      load full_two 0 8 = some (HIT,
        { full_two with
          sets := full_two.sets.set 0
            (full_two_set.set i { c_line with last_used := M + 1 }) }) :=
  load_hit_refreshes full_two 0 8 full_two_set (by decide) (by rfl) (by decide) (by decide)

/-! ## Miss without eviction -/

/-- Miss without eviction on a set with arbitrary recencies: the recency written
is 1 when `find_max` is -1, which is the case when no valid line has a recency
above -1, and `find_max + 1` otherwise. -/
theorem load_fill_general (sim : csim) (nset tag : Int) (c_set : List line)
    (hn : 0 ≤ nset) (hset : sim.sets[nset.toNat]? = some c_set)
    (habs : ∀ l ∈ c_set, ¬ (l.valid = true ∧ l.tag = tag))
    (hinv : ∃ l ∈ c_set, l.valid = false) :
    ∃ i c_line r, c_set[i]? = some c_line ∧ c_line.valid = false ∧
      (∀ j l, j < i → c_set[j]? = some l → l.valid = true) ∧
      ((∃ M, 0 ≤ M ∧ (∀ l ∈ c_set, l.valid = true → l.last_used ≤ M) ∧
          (∃ l ∈ c_set, l.valid = true ∧ l.last_used = M) ∧ r = M + 1) ∨
        ((∀ l ∈ c_set, l.valid = true → l.last_used ≤ -1) ∧ r = 1)) ∧
      load sim nset tag = some (MISS,
        { sim with
          sets := sim.sets.set nset.toNat
            (c_set.set i { valid := true, tag := tag, last_used := r }) }) := by
  obtain ⟨i, c_line, hi, hv, hfirst, h⟩ := load_set_miss c_set tag habs hinv
  refine ⟨i, c_line, if find_max c_set = -1 then 1 else find_max c_set + 1, hi, hv, hfirst,
    ?_, ?_⟩
  · by_cases hneg : ∀ l ∈ c_set, l.valid = true → l.last_used ≤ -1
    · right
      exact ⟨hneg, by rw [find_max_eq_neg_one c_set hneg]; rfl⟩
    · left
      push_neg at hneg
      obtain ⟨l, hl, hlv, hlt⟩ := hneg
      obtain ⟨M, hub, k, hk, hkv, hke⟩ := exists_max_valid c_set ⟨l, hl, hlv⟩
      have hM : 0 ≤ M := by
        have := hub l hl hlv
        omega
      have hm : find_max c_set = max M (-1) := find_max_eq_max c_set M hub ⟨k, hk, hkv, hke⟩
      have hm2 : find_max c_set = M := by
        rw [hm]
        exact max_eq_left (by omega)
      refine ⟨M, hM, hub, ⟨k, hk, hkv, hke⟩, ?_⟩
      rw [hm2, if_neg (by omega)]
  · rw [load_eq sim nset tag c_set hn hset, h]
    rfl

/-- C5. When no valid line holds the tag and some line is invalid, `load`
returns MISS and fills the invalid line of lowest index with `(valid, tag, r)`:
`r = M + 1` where `M` is the largest recency among the valid lines, or `r = 1`
when the set has no valid line at all; every other line is unchanged.  The
recencies of the valid lines are non-negative, as they are in every state of
the simulator (`reachable_recency_nonneg`). -/
theorem load_fills_first_invalid (sim : csim) (nset tag : Int) (c_set : List line)
    (hn : 0 ≤ nset) (hset : sim.sets[nset.toNat]? = some c_set)
    (habs : ∀ l ∈ c_set, ¬ (l.valid = true ∧ l.tag = tag))
    (hinv : ∃ l ∈ c_set, l.valid = false)
    (hnn : ∀ l ∈ c_set, l.valid = true → 0 ≤ l.last_used) :
    ∃ i c_line r, c_set[i]? = some c_line ∧ c_line.valid = false ∧
      (∀ j l, j < i → c_set[j]? = some l → l.valid = true) ∧
      ((∃ M, (∀ l ∈ c_set, l.valid = true → l.last_used ≤ M) ∧
          (∃ l ∈ c_set, l.valid = true ∧ l.last_used = M) ∧ r = M + 1) ∨
        ((∀ l ∈ c_set, l.valid = false) ∧ r = 1)) ∧
      load sim nset tag = some (MISS,
        { sim with
          sets := sim.sets.set nset.toNat
            (c_set.set i { valid := true, tag := tag, last_used := r }) }) := by
  obtain ⟨i, c_line, r, hi, hv, hfirst, hr, h⟩ :=
    load_fill_general sim nset tag c_set hn hset habs hinv
  refine ⟨i, c_line, r, hi, hv, hfirst, ?_, h⟩
  rcases hr with ⟨M, _, hub, hat, hrM⟩ | ⟨hneg, hr1⟩
  · exact Or.inl ⟨M, hub, hat, hrM⟩
  · right
    refine ⟨?_, hr1⟩
    intro l hl
    cases hlv : l.valid with
    | false => rfl
    | true =>
      have h1 := hneg l hl hlv
      have h2 := hnn l hl hlv
      omega

/-- Instance of C5 on a two-line set whose first line is filled at recency 1,
probed for tag 9. -/
theorem load_fills_first_invalid_witness :
    ∃ i c_line r, half_two_set[i]? = some c_line ∧ c_line.valid = false ∧
      (∀ j l, j < i → half_two_set[j]? = some l → l.valid = true) ∧
      ((∃ M, (∀ l ∈ half_two_set, l.valid = true → l.last_used ≤ M) ∧
          (∃ l ∈ half_two_set, l.valid = true ∧ l.last_used = M) ∧ r = M + 1) ∨
        ((∀ l ∈ half_two_set, l.valid = false) ∧ r = 1)) ∧
      load half_two 0 9 = some (MISS,
        { half_two with
          sets := half_two.sets.set 0
            (half_two_set.set i { valid := true, tag := 9, last_used := r }) }) :=
  load_fills_first_invalid half_two 0 9 half_two_set (by decide) (by rfl) (by decide)
    (by decide) (by decide)

/-! ## Filling a set, and the LRU order -/

theorem filled_length (k : Int) (ts : List Int) : (filled k ts).length = ts.length := by
  induction ts generalizing k with
  | nil => rfl
  | cons t ts ih => simp [filled, ih]

theorem filled_append (k : Int) (ts : List Int) (t : Int) :
    filled k (ts ++ [t]) =
      filled k ts ++ [{ valid := true, tag := t, last_used := k + ts.length + 1 }] := by
  induction ts generalizing k with
  | nil => simp [filled]
  | cons a ts ih =>
    have h1 : k + 1 + (ts.length : Int) + 1 = k + ((ts.length + 1 : Nat) : Int) + 1 := by
      push_cast
      ring
    rw [List.cons_append, filled, ih (k + 1), filled, List.cons_append, List.length_cons, h1]

theorem filled_valid (k : Int) (ts : List Int) : ∀ l ∈ filled k ts, l.valid = true := by
  induction ts generalizing k with
  | nil => simp [filled]
  | cons a ts ih =>
    intro l hl
    simp only [filled, List.mem_cons] at hl
    rcases hl with rfl | hl
    · rfl
    · exact ih _ l hl

theorem filled_tag (k : Int) (ts : List Int) : ∀ l ∈ filled k ts, l.tag ∈ ts := by
  induction ts generalizing k with
  | nil => simp [filled]
  | cons a ts ih =>
    intro l hl
    simp only [filled, List.mem_cons] at hl
    rcases hl with rfl | hl
    · exact List.mem_cons_self _ _
    · exact List.mem_cons_of_mem _ (ih _ l hl)

theorem filled_map (k : Int) (ts : List Int) :
    (filled k ts).map (fun l => (l.valid, l.tag)) = ts.map (fun t => (true, t)) := by
  induction ts generalizing k with
  | nil => rfl
  | cons a ts ih => simp [filled, ih]

theorem find_max_loop_invalid (m : Int) (s : List line) (h : ∀ l ∈ s, l.valid = false) :
    find_max_loop m s = m := by
  induction s with
  | nil => rfl
  | cons c rest ih =>
    have hc : c.valid = false := h c (List.mem_cons_self _ _)
    unfold find_max_loop
    simp only [hc, Bool.false_and, Bool.false_eq_true, ↓reduceIte]
    exact ih (fun l hl => h l (List.mem_cons_of_mem _ hl))

theorem find_max_loop_filled (m k : Int) (t : Int) (ts : List Int) (rest : List line)
    (h : m ≤ k) :
    find_max_loop m (filled k (t :: ts) ++ rest) = find_max_loop (k + 1 + ts.length) rest := by
  induction ts generalizing m k t with
  | nil =>
    rw [filled, filled, List.cons_append, List.nil_append, find_max_loop]
    simp only [Bool.true_and, decide_eq_true_eq, List.length_nil, Nat.cast_zero, add_zero]
    rw [if_pos (by omega)]
  | cons a ts ih =>
    have h1 := ih (k + 1) (k + 1) a (le_refl _)
    rw [filled, List.cons_append, find_max_loop]
    simp only [Bool.true_and, decide_eq_true_eq]
    rw [if_pos (by omega), h1]
    congr 1
    simp only [List.length_cons]
    push_cast
    ring

theorem find_max_loop_filled_le (m k : Int) (ts : List Int) (h : k + ts.length ≤ m) :
    find_max_loop m (filled k ts) = m := by
  induction ts generalizing k with
  | nil => rfl
  | cons a ts ih =>
    simp only [List.length_cons] at h
    push_cast at h
    rw [filled, find_max_loop]
    simp only [Bool.true_and, decide_eq_true_eq]
    rw [if_neg (by omega)]
    exact ih (k + 1) (by omega)

theorem load_scan_filled (tag : Int) (i : Nat) (k : Int) (ts : List Int) (rest : List line)
    (h : tag ∉ ts) :
    load_scan tag i (filled k ts ++ rest) = load_scan tag (i + ts.length) rest := by
  induction ts generalizing i k with
  | nil => rfl
  | cons a ts ih =>
    have hne : a ≠ tag := fun he => h (he ▸ List.mem_cons_self _ _)
    have hts : tag ∉ ts := fun hm => h (List.mem_cons_of_mem _ hm)
    rw [filled, List.cons_append, load_scan]
    simp only [hne, decide_False, Bool.false_and, Bool.false_eq_true, ↓reduceIte]
    rw [ih (i + 1) (k + 1) hts, List.length_cons]
    congr 1
    omega

theorem find_empty_loop_filled (i : Int) (k : Int) (ts : List Int) (rest : List line) :
    find_empty_loop i (filled k ts ++ rest) = find_empty_loop (i + ts.length) rest := by
  induction ts generalizing i k with
  | nil => simp [filled]
  | cons a ts ih =>
    rw [filled, List.cons_append, find_empty_loop]
    simp only [Bool.not_true, Bool.false_eq_true, ↓reduceIte]
    rw [ih (i + 1) (k + 1), List.length_cons]
    congr 1
    push_cast
    ring

theorem find_lru_loop_filled (i ml : Nat) (mn k : Int) (ts : List Int) (h : mn ≤ k + 1) :
    find_lru_loop i ml mn (filled k ts) = ml := by
  induction ts generalizing i k with
  | nil => rfl
  | cons a ts ih =>
    rw [filled, find_lru_loop]
    simp only [Bool.and_true, decide_eq_true_eq]
    rw [if_neg (by omega)]
    exact ih (i + 1) (k + 1) (by omega)

theorem filled_set (k : Int) (ts : List Int) (inv x : line) (rest : List line) :
    (filled k ts ++ inv :: rest).set ts.length x = filled k ts ++ x :: rest := by
  induction ts generalizing k with
  | nil => rfl
  | cons a ts ih => simp [filled, ih]

theorem mem_set_self (s : List line) (i : Nat) (x : line) (h : i < s.length) :
    x ∈ s.set i x :=
  mem_of_getElem? (s.set i x) i x (List.getElem?_set_self h)

theorem lt_length_of_getElem? (s : List line) (i : Nat) (a : line) (h : s[i]? = some a) :
    i < s.length :=
  (List.getElem?_eq_some_iff.mp h).1

/-- A probe for a tag held by a valid line is a hit. -/
theorem load_set_resident_hit (c_set : List line) (tag : Int)
    (hres : ∃ l ∈ c_set, l.valid = true ∧ l.tag = tag) :
    ∃ lines, load_set c_set tag = some (HIT, lines) := by
  obtain ⟨i, c, _, _, _, _, h⟩ := load_set_hit c_set tag hres
  exact ⟨_, h⟩

/-- A probe for a tag held by no valid line is defined on a set with at least
one line, and is a miss, with or without eviction. -/
theorem load_set_absent_miss (c_set : List line) (tag : Int) (hE : 1 ≤ c_set.length)
    (habs : ∀ l ∈ c_set, ¬ (l.valid = true ∧ l.tag = tag)) :
    ∃ ret lines, load_set c_set tag = some (ret, lines) ∧
      (ret = MISS ∨ ret = MISSEVICTION) := by
  by_cases hinv : ∃ l ∈ c_set, l.valid = false
  · obtain ⟨i, c, _, _, _, h⟩ := load_set_miss c_set tag habs hinv
    exact ⟨_, _, h, Or.inl rfl⟩
  · have hfull : ∀ l ∈ c_set, l.valid = true := by
      intro l hl
      by_contra hv
      exact hinv ⟨l, hl, by simpa using hv⟩
    obtain ⟨i, c, _, _, _, h⟩ := load_set_evict c_set tag hE habs hfull
    exact ⟨_, _, h, Or.inr rfl⟩

/-- A defined probe rewrites exactly one line of the set, and leaves it valid
with the requested tag. -/
theorem load_set_cases (c_set : List line) (tag : Int) (ret : cache_status)
    (lines : List line) (h : load_set c_set tag = some (ret, lines)) :
    ∃ i x, i < c_set.length ∧ lines = c_set.set i x ∧ x.valid = true ∧ x.tag = tag := by
  by_cases hres : ∃ l ∈ c_set, l.valid = true ∧ l.tag = tag
  · obtain ⟨i, c, hi, hv, ht, _, h2⟩ := load_set_hit c_set tag hres
    rw [h2] at h
    simp only [Option.some.injEq, Prod.mk.injEq] at h
    exact ⟨i, _, lt_length_of_getElem? c_set i c hi, h.2.symm, hv, ht⟩
  · have habs : ∀ l ∈ c_set, ¬ (l.valid = true ∧ l.tag = tag) :=
      fun l hl hh => hres ⟨l, hl, hh⟩
    by_cases hinv : ∃ l ∈ c_set, l.valid = false
    · obtain ⟨i, c, hi, _, _, h2⟩ := load_set_miss c_set tag habs hinv
      rw [h2] at h
      simp only [Option.some.injEq, Prod.mk.injEq] at h
      exact ⟨i, _, lt_length_of_getElem? c_set i c hi, h.2.symm, rfl, rfl⟩
    · have hfull : ∀ l ∈ c_set, l.valid = true := by
        intro l hl
        by_contra hv
        exact hinv ⟨l, hl, by simpa using hv⟩
      have hE : 1 ≤ c_set.length := by
        cases c_set with
        | nil => simp [load_set, load_scan, find_empty, find_empty_loop, find_lru] at h
        | cons c rest => simp
      obtain ⟨i, c, hi, _, _, h2⟩ := load_set_evict c_set tag hE habs hfull
      rw [h2] at h
      simp only [Option.some.injEq, Prod.mk.injEq] at h
      exact ⟨i, _, lt_length_of_getElem? c_set i c hi, h.2.symm, rfl, rfl⟩

/-- After a probe the tag is held by a valid line of the set. -/
theorem load_set_resident_after (c_set : List line) (tag : Int) (ret : cache_status)
    (lines : List line) (h : load_set c_set tag = some (ret, lines)) :
    ∃ l ∈ lines, l.valid = true ∧ l.tag = tag := by
  obtain ⟨i, x, hi, he, hv, ht⟩ := load_set_cases c_set tag ret lines h
  exact ⟨x, he ▸ mem_set_self c_set i x hi, hv, ht⟩

/-- A probe keeps the number of lines of the set. -/
theorem load_set_length (c_set : List line) (tag : Int) (ret : cache_status)
    (lines : List line) (h : load_set c_set tag = some (ret, lines)) :
    lines.length = c_set.length := by
  obtain ⟨i, x, _, he, _, _⟩ := load_set_cases c_set tag ret lines h
  rw [he, List.length_set]

/-- Filling the first invalid line of a set whose filled part is `filled 0 done`. -/
theorem load_set_fill (done : List Int) (t : Int) (inv : line) (rest : List line)
    (hinv : inv.valid = false) (hrest : ∀ l ∈ rest, l.valid = false) (ht : t ∉ done) :
    load_set (filled 0 done ++ inv :: rest) t =
      some (MISS, filled 0 (done ++ [t]) ++ rest) := by
  have hall : ∀ l ∈ inv :: rest, l.valid = false := by
    intro l hl
    rcases List.mem_cons.mp hl with rfl | hl
    · exact hinv
    · exact hrest l hl
  have hs : load_scan t 0 (filled 0 done ++ inv :: rest) = none := by
    rw [load_scan_filled _ _ _ _ _ ht]
    refine (load_scan_none _ _ _).mpr (fun l hl hh => ?_)
    have := hall l hl
    rw [hh.1] at this
    exact Bool.noConfusion this
  have he : find_empty (filled 0 done ++ inv :: rest) = (done.length : Int) := by
    unfold find_empty
    rw [find_empty_loop_filled, find_empty_loop]
    simp [hinv]
  have hr : (if find_max (filled 0 done ++ inv :: rest) = -1 then (1 : Int)
      else find_max (filled 0 done ++ inv :: rest) + 1) = 0 + (done.length : Int) + 1 := by
    cases done with
    | nil =>
      have : find_max (filled 0 [] ++ inv :: rest) = -1 := find_max_loop_invalid _ _ hall
      rw [this]
      simp
    | cons d ds =>
      have : find_max (filled 0 (d :: ds) ++ inv :: rest) = 0 + 1 + (ds.length : Int) := by
        unfold find_max
        rw [find_max_loop_filled (-1) 0 d ds _ (by omega)]
        exact find_max_loop_invalid _ _ hall
      rw [this, if_neg (by omega), List.length_cons]
      push_cast
      ring
  unfold load_set
  simp only [hs]
  rw [if_pos (by rw [he]; omega), he, hr, Int.toNat_ofNat, filled_set, filled_append,
    List.append_assoc]
  rfl

theorem set_getElem?_self (sets : List (List line)) (n : Nat) (c_set : List line)
    (h : sets[n]? = some c_set) : sets.set n c_set = sets := by
  induction sets generalizing n with
  | nil => rfl
  | cons a rest ih =>
    cases n with
    | zero =>
      simp only [List.getElem?_cons_zero, Option.some.injEq] at h
      rw [List.set_cons_zero, h]
    | succ k =>
      simp only [List.getElem?_cons_succ] at h
      rw [List.set_cons_succ, ih k h]

/-- A defined probe of the addressed set is a defined probe of the cache. -/
theorem load_of_load_set (sim : csim) (nset tag : Int) (c_set lines : List line)
    (ret : cache_status) (hn : 0 ≤ nset) (hset : sim.sets[nset.toNat]? = some c_set)
    (h : load_set c_set tag = some (ret, lines)) :
    load sim nset tag = some (ret, { sim with sets := sim.sets.set nset.toNat lines }) := by
  rw [load_eq sim nset tag c_set hn hset, h]
  rfl

theorem load_all_snoc (sim sim1 sim2 : csim) (nset : Int) (ts : List Int) (t : Int)
    (rets : List cache_status) (ret : cache_status)
    (h1 : load_all sim nset ts = some (rets, sim1))
    (h2 : load sim1 nset t = some (ret, sim2)) :
    load_all sim nset (ts ++ [t]) = some (rets ++ [ret], sim2) := by
  induction ts generalizing sim rets with
  | nil =>
    simp only [load_all, Option.some.injEq, Prod.mk.injEq] at h1
    obtain ⟨hr, hs⟩ := h1
    subst hr
    subst hs
    simp [load_all, h2]
  | cons a ts ih =>
    rw [List.cons_append, load_all]
    rw [load_all] at h1
    cases hl : load sim nset a with
    | none => simp [hl] at h1
    | some r =>
      obtain ⟨ra, sa⟩ := r
      simp only [hl] at h1 ⊢
      cases hr : load_all sa nset ts with
      | none => simp [hr] at h1
      | some q =>
        obtain ⟨rs, sb⟩ := q
        simp only [hr, Option.some.injEq, Prod.mk.injEq] at h1
        obtain ⟨hrets, hsim⟩ := h1
        subst hrets
        subst hsim
        rw [ih sa rs hr]
        rfl

/-- Loading pairwise distinct new tags into a set whose filled part is
`filled 0 done` and whose other lines are invalid: every probe is a MISS and the
tags are appended to the filled part. -/
theorem load_all_fill (nset : Int) (hn : 0 ≤ nset) (ts : List Int) :
    ∀ (done : List Int) (invs : List line) (sim : csim),
      sim.sets[nset.toNat]? = some (filled 0 done ++ invs) →
      ts.length ≤ invs.length → (∀ l ∈ invs, l.valid = false) → (done ++ ts).Nodup →
      load_all sim nset ts = some (List.replicate ts.length MISS,
        { sim with
          sets := sim.sets.set nset.toNat (filled 0 (done ++ ts) ++ invs.drop ts.length) }) := by
  induction ts with
  | nil =>
    intro done invs sim hset _ _ _
    simp only [load_all, List.length_nil, List.replicate_zero, List.append_nil, List.drop_zero]
    rw [set_getElem?_self _ _ _ hset]
  | cons t ts ih =>
    intro done invs sim hset hlen hinv hnd
    cases invs with
    | nil => simp at hlen
    | cons inv rest =>
      have ht : t ∉ done := by
        intro hm
        have := (List.nodup_append.mp hnd).2.2
        exact this hm (List.mem_cons_self _ _)
      have hrest : ∀ l ∈ rest, l.valid = false := fun l hl => hinv l (List.mem_cons_of_mem _ hl)
      have h1 := load_of_load_set sim nset t _ _ _ hn hset
        (load_set_fill done t inv rest (hinv inv (List.mem_cons_self _ _)) hrest ht)
      have hset1 : ({ sim with
          sets := sim.sets.set nset.toNat (filled 0 (done ++ [t]) ++ rest) } : csim).sets[nset.toNat]?
          = some (filled 0 (done ++ [t]) ++ rest) := sets_after_set sim _ _ _ hset
      have hnd1 : ((done ++ [t]) ++ ts).Nodup := by
        rw [List.append_assoc]
        exact hnd
      have h2 := ih (done ++ [t]) rest _ hset1 (by simpa using hlen) hrest hnd1
      rw [load_all, h1]
      simp only [h2, List.set_set, List.append_assoc, List.singleton_append, List.length_cons,
        List.replicate_succ, List.drop_succ_cons]

/-- Refreshing the first of the filled tags: a hit that moves its recency to the
top. -/
theorem load_set_refresh_first (t1 t2 : Int) (mid : List Int) :
    load_set (filled 0 (t1 :: t2 :: mid)) t1 =
      some (HIT, { valid := true, tag := t1, last_used := (mid.length : Int) + 2 + 1 } ::
        filled 1 (t2 :: mid)) := by
  have hm : find_max (filled 0 (t1 :: t2 :: mid)) = (mid.length : Int) + 2 := by
    have h := find_max_loop_filled (-1) 0 t1 (t2 :: mid) [] (by omega)
    rw [List.append_nil] at h
    unfold find_max
    rw [h]
    simp only [find_max_loop, List.length_cons]
    push_cast
    ring
  have hs : load_scan t1 0 (filled 0 (t1 :: t2 :: mid)) = some 0 := by
    rw [filled, load_scan]
    simp
  unfold load_set
  simp only [hs, hm]
  rw [filled]
  simp only [List.modify, List.modifyHead, zero_add]
  rfl

/-- The probe for a new tag after the refresh evicts line 1, which holds the
second tag. -/
theorem load_set_evict_second (t1 t2 tnew : Int) (mid : List Int)
    (h1 : tnew ≠ t1) (h2 : tnew ≠ t2) (hmid : tnew ∉ mid) :
    load_set ({ valid := true, tag := t1, last_used := (mid.length : Int) + 2 + 1 } ::
        filled 1 (t2 :: mid)) tnew =
      some (MISSEVICTION,
        { valid := true, tag := t1, last_used := (mid.length : Int) + 2 + 1 } ::
        { valid := true, tag := tnew, last_used := (mid.length : Int) + 2 + 1 + 1 } ::
        filled 2 mid) := by
  have hvalid : ∀ l ∈ ({ valid := true, tag := t1, last_used := (mid.length : Int) + 2 + 1 } ::
      filled 1 (t2 :: mid) : List line), l.valid = true := by
    intro l hl
    rcases List.mem_cons.mp hl with rfl | hl
    · rfl
    · exact filled_valid _ _ l hl
  have habs : ∀ l ∈ ({ valid := true, tag := t1, last_used := (mid.length : Int) + 2 + 1 } ::
      filled 1 (t2 :: mid) : List line), ¬ (l.valid = true ∧ l.tag = tnew) := by
    intro l hl hh
    rcases List.mem_cons.mp hl with rfl | hl
    · exact h1 hh.2.symm
    · have := filled_tag _ _ l hl
      rw [hh.2] at this
      rcases List.mem_cons.mp this with he | hm
      · exact h2 he
      · exact hmid hm
  have hs := (load_scan_none tnew 0 _).mpr habs
  have he : find_empty ({ valid := true, tag := t1, last_used := (mid.length : Int) + 2 + 1 } ::
      filled 1 (t2 :: mid)) = -1 := (find_empty_loop_none 0 (le_refl _) _).mpr hvalid
  have hm : find_max ({ valid := true, tag := t1, last_used := (mid.length : Int) + 2 + 1 } ::
      filled 1 (t2 :: mid)) = (mid.length : Int) + 2 + 1 := by
    unfold find_max
    rw [find_max_loop]
    simp only [Bool.true_and, decide_eq_true_eq]
    rw [if_pos (by omega)]
    apply find_max_loop_filled_le
    simp only [List.length_cons]
    push_cast
    omega
  have hl : find_lru ({ valid := true, tag := t1, last_used := (mid.length : Int) + 2 + 1 } ::
      filled 1 (t2 :: mid)) = some 1 := by
    rw [find_lru, filled, find_lru_loop]
    simp only [Bool.and_true, decide_eq_true_eq]
    rw [if_pos (by omega)]
    rw [find_lru_loop_filled _ _ _ _ _ (by omega)]
  unfold load_set
  simp only [hs, he, hm, hl]
  rw [filled]
  simp only [ne_eq, not_true_eq_false, ↓reduceIte, List.set_cons_succ, List.set_cons_zero]
  norm_num

/-- C3. LRU correctness for every associativity `E = mid.length + 2 ≥ 2`: from an
all-invalid set of `E` lines, loading the pairwise distinct tags
`t1, t2, mid...` in order gives `E` misses, loading `t1` again is a hit, and
loading the new tag `tnew` then returns MISSEVICTION and evicts `t2`: the set
holds `t1`, `tnew` and the tags `mid` in valid lines, no valid line holds `t2`,
a further load of `t1` is HIT and a further load of `t2` is not. -/
theorem lru_evicts_second (sim : csim) (nset : Int) (c_set : List line)
    (t1 t2 tnew : Int) (mid : List Int)
    (hn : 0 ≤ nset) (hset : sim.sets[nset.toNat]? = some c_set)
    (hE : c_set.length = mid.length + 2) (hinv : ∀ l ∈ c_set, l.valid = false)
    (hnd : (t1 :: t2 :: mid ++ [tnew]).Nodup) :
    ∃ sim1 sim2 final,
      load_all sim nset (t1 :: t2 :: mid ++ [t1]) =
        some (List.replicate (mid.length + 2) MISS ++ [HIT], sim1) ∧
      load sim1 nset tnew = some (MISSEVICTION, sim2) ∧
      sim2 = { sim with sets := sim.sets.set nset.toNat final } ∧
      final.map (fun l => (l.valid, l.tag)) = (t1 :: tnew :: mid).map (fun t => (true, t)) ∧
      (¬ ∃ l ∈ final, l.valid = true ∧ l.tag = t2) ∧
      (∃ sim3, load sim2 nset t1 = some (HIT, sim3)) ∧
      (∃ ret sim3, load sim2 nset t2 = some (ret, sim3) ∧ ret ≠ HIT) := by
  -- the facts packed in the distinctness hypothesis
  have hnd0 : (t1 :: t2 :: mid).Nodup := (List.nodup_append.mp hnd).1
  have hnew : tnew ∉ t1 :: t2 :: mid := fun hm =>
    (List.nodup_append.mp hnd).2.2 hm (List.mem_singleton_self _)
  have h_new1 : tnew ≠ t1 := fun he => hnew (he ▸ List.mem_cons_self _ _)
  have h_new2 : tnew ≠ t2 := fun he =>
    hnew (List.mem_cons_of_mem _ (he ▸ List.mem_cons_self _ _))
  have h_newmid : tnew ∉ mid := fun hm =>
    hnew (List.mem_cons_of_mem _ (List.mem_cons_of_mem _ hm))
  have h12 : t2 ≠ t1 := fun he =>
    (List.nodup_cons.mp hnd0).1 (he ▸ List.mem_cons_self _ _)
  have h2mid : t2 ∉ mid := (List.nodup_cons.mp (List.nodup_cons.mp hnd0).2).1
  -- the E fills
  have hset0 : sim.sets[nset.toNat]? = some (filled 0 [] ++ c_set) := hset
  have hfill := load_all_fill nset hn (t1 :: t2 :: mid) [] c_set sim hset0
    (by simp [hE]) hinv (by simpa using hnd0)
  have hdrop : c_set.drop (t1 :: t2 :: mid).length = [] :=
    List.drop_eq_nil_of_le (by simp [hE])
  rw [hdrop, List.append_nil, List.nil_append] at hfill
  -- the refresh of t1
  have hsetA : ({ sim with
      sets := sim.sets.set nset.toNat (filled 0 (t1 :: t2 :: mid)) } : csim).sets[nset.toNat]?
      = some (filled 0 (t1 :: t2 :: mid)) := sets_after_set sim _ _ _ hset
  have hhit := load_of_load_set _ nset t1 _ _ _ hn hsetA (load_set_refresh_first t1 t2 mid)
  have hseq := load_all_snoc _ _ _ nset _ t1 _ _ hfill hhit
  simp only [List.set_set] at hseq
  -- the eviction
  have hsetB : ({ sim with
      sets := sim.sets.set nset.toNat
        ({ valid := true, tag := t1, last_used := (mid.length : Int) + 2 + 1 } ::
          filled 1 (t2 :: mid)) } : csim).sets[nset.toNat]?
      = some ({ valid := true, tag := t1, last_used := (mid.length : Int) + 2 + 1 } ::
          filled 1 (t2 :: mid)) := sets_after_set sim _ _ _ hset
  have hev := load_of_load_set _ nset tnew _ _ _ hn hsetB
    (load_set_evict_second t1 t2 tnew mid h_new1 h_new2 h_newmid)
  simp only [List.set_set] at hev
  have hsetC : ({ sim with
      sets := sim.sets.set nset.toNat (lru_final t1 tnew mid) } : csim).sets[nset.toNat]?
      = some (lru_final t1 tnew mid) := sets_after_set sim _ _ _ hset
  -- residency in the final set
  have hres1 : ∃ l ∈ lru_final t1 tnew mid, l.valid = true ∧ l.tag = t1 :=
    ⟨_, List.mem_cons_self _ _, rfl, rfl⟩
  have habs2 : ∀ l ∈ lru_final t1 tnew mid, ¬ (l.valid = true ∧ l.tag = t2) := by
    intro l hl hh
    rcases List.mem_cons.mp hl with rfl | hl
    · exact h12 hh.2.symm
    · rcases List.mem_cons.mp hl with rfl | hl
      · exact h_new2 hh.2
      · have := filled_tag _ _ l hl
        rw [hh.2] at this
        exact h2mid this
  obtain ⟨lines1, hl1⟩ := load_set_resident_hit _ t1 hres1
  obtain ⟨ret2, lines2, hl2, hret2⟩ :=
    load_set_absent_miss (lru_final t1 tnew mid) t2 (by simp [lru_final]) habs2
  refine ⟨_, _, lru_final t1 tnew mid, ?_, hev, rfl, ?_, ?_, ?_, ?_⟩
  · simpa only [List.set_set, List.length_cons, List.cons_append] using hseq
  · simp [lru_final, filled_map]
  · rintro ⟨l, hl, hh⟩
    exact habs2 l hl hh
  · exact ⟨_, load_of_load_set _ nset t1 _ _ _ hn hsetC hl1⟩
  · refine ⟨ret2, _, load_of_load_set _ nset t2 _ _ _ hn hsetC hl2, ?_⟩
    rcases hret2 with h | h <;> rw [h] <;> exact fun hc => cache_status.noConfusion hc

/-- Instance of C3 with `E = 3`: tags 1, 2, 3 are loaded into an all-invalid
three-line set, 1 is refreshed, and 4 evicts 2. -/
theorem lru_evicts_second_witness :
    ∃ sim1 sim2 final,
      load_all three_invalid 0 (1 :: 2 :: [3] ++ [1]) =
        some (List.replicate ([3].length + 2) MISS ++ [HIT], sim1) ∧
      load sim1 0 4 = some (MISSEVICTION, sim2) ∧
      sim2 = { three_invalid with sets := three_invalid.sets.set 0 final } ∧
      final.map (fun l => (l.valid, l.tag)) = (1 :: 4 :: [3]).map (fun t => (true, t)) ∧
      (¬ ∃ l ∈ final, l.valid = true ∧ l.tag = 2) ∧
      (∃ sim3, load sim2 0 1 = some (HIT, sim3)) ∧
      (∃ ret sim3, load sim2 0 2 = some (ret, sim3) ∧ ret ≠ HIT) :=
  lru_evicts_second three_invalid 0 three_invalid_set 1 2 4 [3] (by decide) (by rfl)
    (by decide) (by decide) (by decide)

/-! ## One trace record -/

theorem get_status_HIT (stat : status) (h : stat.cs = HIT) :
    (get_status stat).1 = { stat with hit := stat.hit + 1 } := by
  simp [get_status, h]

theorem get_status_MISS (stat : status) (h : stat.cs = MISS) :
    (get_status stat).1 = { stat with miss := stat.miss + 1 } := by
  simp [get_status, h]

theorem get_status_MISSEVICTION (stat : status) (h : stat.cs = MISSEVICTION) :
    (get_status stat).1 =
      { stat with miss := stat.miss + 1, evictions := stat.evictions + 1 } := by
  simp [get_status, h]

/-- A probe of an in-range set with at least one line is defined and returns one
of the three single-probe outcomes. -/
theorem load_defined (sim : csim) (nset tag : Int) (c_set : List line)
    (hn : 0 ≤ nset) (hset : sim.sets[nset.toNat]? = some c_set) (hE : 1 ≤ c_set.length) :
    ∃ ret sim1, load sim nset tag = some (ret, sim1) ∧
      (ret = HIT ∨ ret = MISS ∨ ret = MISSEVICTION) := by
  obtain ⟨ret, lines, h, hr⟩ := load_set_status c_set tag hE
  exact ⟨ret, _, load_of_load_set sim nset tag c_set lines ret hn hset h, hr⟩

/-- C6. A record with operation `L` or `S` whose address decodes to
`(tag, set, offset)`, with `set` in range and at least one line in that set:
the step performs the single probe `load sim set tag` and leaves its cache; the
step of the `S` record equals the step of the `L` record, as `store` equals
`load`; and the counters change by hits+1 only on HIT, misses+1 only on MISS,
misses+1 and evictions+1 only on MISSEVICTION. -/
theorem load_store_step (sim : csim) (stat : status) (op : Char) (addr : Nat) (size : Int)
    (tag set offset : Int) (c_set : List line)
    (hop : op = 'L' ∨ op = 'S')
    (hdec : parse_input addr sim.s sim.b = some (tag, set, offset))
    (hn : 0 ≤ set) (hset : sim.sets[set.toNat]? = some c_set) (hE : 1 ≤ c_set.length) :
    ∃ ret sim1 stat1, load sim set tag = some (ret, sim1) ∧
      simulate_step sim stat (trace_line.access op addr size) = some (sim1, stat1) ∧
      simulate_step sim stat (trace_line.access 'S' addr size) =
        simulate_step sim stat (trace_line.access 'L' addr size) ∧
      store sim set tag = load sim set tag ∧
      stat1.cs = ret ∧ stat1.verbose = stat.verbose ∧
      ((ret = HIT ∧ stat1.hit = stat.hit + 1 ∧ stat1.miss = stat.miss ∧
          stat1.evictions = stat.evictions) ∨
        (ret = MISS ∧ stat1.hit = stat.hit ∧ stat1.miss = stat.miss + 1 ∧
          stat1.evictions = stat.evictions) ∨
        (ret = MISSEVICTION ∧ stat1.hit = stat.hit ∧ stat1.miss = stat.miss + 1 ∧
          stat1.evictions = stat.evictions + 1)) := by
  obtain ⟨ret, sim1, hload, hret⟩ := load_defined sim set tag c_set hn hset hE
  have hL : simulate_step sim stat (trace_line.access 'L' addr size) =
      some (sim1, (get_status { stat with cs := ret }).1) := by
    simp [simulate_step, hdec, simulate_access, hload]
  have hS : simulate_step sim stat (trace_line.access 'S' addr size) =
      some (sim1, (get_status { stat with cs := ret }).1) := by
    simp [simulate_step, hdec, simulate_access, store, hload]
  have hstep : simulate_step sim stat (trace_line.access op addr size) =
      some (sim1, (get_status { stat with cs := ret }).1) := by
    rcases hop with rfl | rfl
    · exact hL
    · exact hS
  refine ⟨ret, sim1, _, hload, hstep, hS.trans hL.symm, rfl, ?_⟩
  rcases hret with h | h | h
  · subst h
    rw [get_status_HIT _ rfl]
    exact ⟨rfl, rfl, Or.inl ⟨rfl, rfl, rfl, rfl⟩⟩
  · subst h
    rw [get_status_MISS _ rfl]
    exact ⟨rfl, rfl, Or.inr (Or.inl ⟨rfl, rfl, rfl, rfl⟩)⟩
  · subst h
    rw [get_status_MISSEVICTION _ rfl]
    exact ⟨rfl, rfl, Or.inr (Or.inr ⟨rfl, rfl, rfl, rfl⟩)⟩

/-- Instance of C6: the record `S 10,1` on the fresh cache of geometry
`s = 2, E = 1, b = 4`, whose address decodes to tag 0, set 1, offset 0. -/
theorem load_store_step_witness :
    ∃ ret sim1 stat1, load fresh_2_1_4 1 0 = some (ret, sim1) ∧
      simulate_step fresh_2_1_4 zero_status (trace_line.access 'S' 0x10 1) =
        some (sim1, stat1) ∧
      simulate_step fresh_2_1_4 zero_status (trace_line.access 'S' 0x10 1) =
        simulate_step fresh_2_1_4 zero_status (trace_line.access 'L' 0x10 1) ∧
      store fresh_2_1_4 1 0 = load fresh_2_1_4 1 0 ∧
      stat1.cs = ret ∧ stat1.verbose = zero_status.verbose ∧
      ((ret = HIT ∧ stat1.hit = zero_status.hit + 1 ∧ stat1.miss = zero_status.miss ∧
          stat1.evictions = zero_status.evictions) ∨
        (ret = MISS ∧ stat1.hit = zero_status.hit ∧ stat1.miss = zero_status.miss + 1 ∧
          stat1.evictions = zero_status.evictions) ∨
        (ret = MISSEVICTION ∧ stat1.hit = zero_status.hit ∧
          stat1.miss = zero_status.miss + 1 ∧
          stat1.evictions = zero_status.evictions + 1)) :=
  load_store_step fresh_2_1_4 zero_status 'S' 0x10 1 0 1 0
    [{ valid := false, tag := 0, last_used := 0 }]
    (Or.inr rfl) (by decide) (by decide) (by rfl) (by decide)

/-- The step of an `M` record and of an `L` record, given the outcome of the
probe they both start with. -/
theorem simulate_access_of_load (sim sim1 : csim) (stat : status) (set tag : Int)
    (ret : cache_status) (h : load sim set tag = some (ret, sim1)) :
    simulate_access sim stat 'L' set tag =
        some (sim1, (get_status { stat with cs := ret }).1) ∧
      (ret = HIT → simulate_access sim stat 'M' set tag =
        some (sim1, (get_status { stat with cs := HITHIT }).1)) ∧
      (ret = MISS → simulate_access sim stat 'M' set tag =
        some (sim1, (get_status { stat with cs := MISSHIT }).1)) ∧
      (ret = MISSEVICTION → simulate_access sim stat 'M' set tag =
        some (sim1, (get_status { stat with cs := MISSEVICTIONHIT }).1)) := by
  refine ⟨by simp [simulate_access, h], ?_, ?_, ?_⟩
  · intro hr
    subst hr
    simp [simulate_access, modify, h]
  · intro hr
    subst hr
    simp [simulate_access, modify, h]
  · intro hr
    subst hr
    simp [simulate_access, modify, h]

/-- Counters after the dispatch of `M` and of `L` on the same state, set and
tag, in the three cases of the probe. -/
theorem simulate_access_modify (sim : csim) (stat : status) (set tag : Int) (c_set : List line)
    (hn : 0 ≤ set) (hset : sim.sets[set.toNat]? = some c_set) (hE : 1 ≤ c_set.length) :
    ∃ simM statM simL statL,
      simulate_access sim stat 'M' set tag = some (simM, statM) ∧
      simulate_access sim stat 'L' set tag = some (simL, statL) ∧
      statM.hit = statL.hit + 1 ∧ statM.miss = statL.miss ∧
      statM.evictions = statL.evictions ∧
      ((∃ l ∈ c_set, l.valid = true ∧ l.tag = tag) →
        statM.hit = stat.hit + 2 ∧ statM.miss = stat.miss ∧
        statM.evictions = stat.evictions) ∧
      ((¬ ∃ l ∈ c_set, l.valid = true ∧ l.tag = tag) → (∃ l ∈ c_set, l.valid = false) →
        statM.hit = stat.hit + 1 ∧ statM.miss = stat.miss + 1 ∧
        statM.evictions = stat.evictions) ∧
      ((¬ ∃ l ∈ c_set, l.valid = true ∧ l.tag = tag) → (∀ l ∈ c_set, l.valid = true) →
        statM.hit = stat.hit + 1 ∧ statM.miss = stat.miss + 1 ∧
        statM.evictions = stat.evictions + 1) := by
  by_cases hres : ∃ l ∈ c_set, l.valid = true ∧ l.tag = tag
  · obtain ⟨i, c, _, _, _, _, h⟩ := load_set_hit c_set tag hres
    have hload := load_of_load_set sim set tag c_set _ HIT hn hset h
    obtain ⟨hL, hM, _, _⟩ := simulate_access_of_load sim _ stat set tag HIT hload
    refine ⟨_, _, _, _, hM rfl, hL, ?_, ?_, ?_, ?_, ?_, ?_⟩
    · simp [get_status]
    · simp [get_status]
    · simp [get_status]
    · intro _
      simp only [get_status]
      refine ⟨?_, trivial, trivial⟩
      show stat.hit + 1 + 1 = stat.hit + 2
      ring
    · exact fun hh => absurd hres hh
    · exact fun hh => absurd hres hh
  · have habs : ∀ l ∈ c_set, ¬ (l.valid = true ∧ l.tag = tag) :=
      fun l hl hh => hres ⟨l, hl, hh⟩
    by_cases hinv : ∃ l ∈ c_set, l.valid = false
    · obtain ⟨i, c, _, _, _, h⟩ := load_set_miss c_set tag habs hinv
      have hload := load_of_load_set sim set tag c_set _ MISS hn hset h
      obtain ⟨hL, _, hM, _⟩ := simulate_access_of_load sim _ stat set tag MISS hload
      refine ⟨_, _, _, _, hM rfl, hL, ?_, ?_, ?_, ?_, ?_, ?_⟩
      · simp [get_status]
      · simp [get_status]
      · simp [get_status]
      · exact fun hh => absurd hh hres
      · intro _ _
        simp [get_status]
      · intro _ hall
        obtain ⟨l, hl, hv⟩ := hinv
        have := hall l hl
        simp [hv] at this
    · have hfull : ∀ l ∈ c_set, l.valid = true := by
        intro l hl
        by_contra hv
        exact hinv ⟨l, hl, by simpa using hv⟩
      obtain ⟨i, c, _, _, _, h⟩ := load_set_evict c_set tag hE habs hfull
      have hload := load_of_load_set sim set tag c_set _ MISSEVICTION hn hset h
      obtain ⟨hL, _, _, hM⟩ := simulate_access_of_load sim _ stat set tag MISSEVICTION hload
      refine ⟨_, _, _, _, hM rfl, hL, ?_, ?_, ?_, ?_, ?_, ?_⟩
      · simp [get_status]
      · simp [get_status]
      · simp [get_status]
      · exact fun hh => absurd hh hres
      · exact fun _ hh => absurd hh hinv
      · intro _ _
        simp [get_status]

/-- C7. One Modify record on an in-range set (with at least one line) changes
the counters by (hits+2, misses+0, evictions+0) when a valid line holds the
tag, by (hits+1, misses+1, evictions+0) when none does and some line is
invalid, by (hits+1, misses+1, evictions+1) when none does and every line is
valid; in each case it counts one hit more than a Load record in the same
state, and the same misses and evictions.  The results `(simM, statM)` and
`(simL, statL)` are those of one iteration of `simulate` on any `M`, resp. `L`,
record whose address decodes to this set and tag. -/
theorem modify_statistics (sim : csim) (stat : status) (set tag : Int) (c_set : List line)
    (hn : 0 ≤ set) (hset : sim.sets[set.toNat]? = some c_set) (hE : 1 ≤ c_set.length) :
    ∃ simM statM simL statL,
      simulate_access sim stat 'M' set tag = some (simM, statM) ∧
      simulate_access sim stat 'L' set tag = some (simL, statL) ∧
      (∀ addr size offset, parse_input addr sim.s sim.b = some (tag, set, offset) →
        simulate_step sim stat (trace_line.access 'M' addr size) = some (simM, statM) ∧
        simulate_step sim stat (trace_line.access 'L' addr size) = some (simL, statL)) ∧
      statM.hit = statL.hit + 1 ∧ statM.miss = statL.miss ∧
      statM.evictions = statL.evictions ∧
      ((∃ l ∈ c_set, l.valid = true ∧ l.tag = tag) →
        statM.hit = stat.hit + 2 ∧ statM.miss = stat.miss ∧
        statM.evictions = stat.evictions) ∧
      ((¬ ∃ l ∈ c_set, l.valid = true ∧ l.tag = tag) → (∃ l ∈ c_set, l.valid = false) →
        statM.hit = stat.hit + 1 ∧ statM.miss = stat.miss + 1 ∧
        statM.evictions = stat.evictions) ∧
      ((¬ ∃ l ∈ c_set, l.valid = true ∧ l.tag = tag) → (∀ l ∈ c_set, l.valid = true) →
        statM.hit = stat.hit + 1 ∧ statM.miss = stat.miss + 1 ∧
        statM.evictions = stat.evictions + 1) := by
  obtain ⟨simM, statM, simL, statL, hM, hL, hrest⟩ :=
    simulate_access_modify sim stat set tag c_set hn hset hE
  refine ⟨simM, statM, simL, statL, hM, hL, ?_, hrest⟩
  intro addr size offset hdec
  constructor
  · simp only [simulate_step, hdec]
    exact hM
  · simp only [simulate_step, hdec]
    exact hL

/-- Instance of C7: a Modify record for tag 12 on the full two-line set
(with `s = b = 1` the address 12 decodes to tag 12, set 0). -/
theorem modify_statistics_witness :
    ∃ simM statM simL statL,
      simulate_access full_two zero_status 'M' 0 12 = some (simM, statM) ∧
      simulate_access full_two zero_status 'L' 0 12 = some (simL, statL) ∧
      (∀ addr size offset, parse_input addr full_two.s full_two.b = some (12, 0, offset) →
        simulate_step full_two zero_status (trace_line.access 'M' addr size) =
          some (simM, statM) ∧
        simulate_step full_two zero_status (trace_line.access 'L' addr size) =
          some (simL, statL)) ∧
      statM.hit = statL.hit + 1 ∧ statM.miss = statL.miss ∧
      statM.evictions = statL.evictions ∧
      ((∃ l ∈ full_two_set, l.valid = true ∧ l.tag = 12) →
        statM.hit = zero_status.hit + 2 ∧ statM.miss = zero_status.miss ∧
        statM.evictions = zero_status.evictions) ∧
      ((¬ ∃ l ∈ full_two_set, l.valid = true ∧ l.tag = 12) →
        (∃ l ∈ full_two_set, l.valid = false) →
        statM.hit = zero_status.hit + 1 ∧ statM.miss = zero_status.miss + 1 ∧
        statM.evictions = zero_status.evictions) ∧
      ((¬ ∃ l ∈ full_two_set, l.valid = true ∧ l.tag = 12) →
        (∀ l ∈ full_two_set, l.valid = true) →
        statM.hit = zero_status.hit + 1 ∧ statM.miss = zero_status.miss + 1 ∧
        statM.evictions = zero_status.evictions + 1) :=
  modify_statistics full_two zero_status 0 12 full_two_set (by decide) (by rfl) (by decide)

/-! ## Two probes in a row -/

/-- A hit changes the set: the refreshed line gets a recency above its own. -/
theorem load_set_hit_changes (c_set lines : List line) (tag : Int) (ret : cache_status)
    (hres : ∃ l ∈ c_set, l.valid = true ∧ l.tag = tag)
    (h : load_set c_set tag = some (ret, lines)) : lines ≠ c_set := by
  obtain ⟨i, c, hi, hv, _, _, h2⟩ := load_set_hit c_set tag hres
  rw [h2] at h
  simp only [Option.some.injEq, Prod.mk.injEq] at h
  intro he
  have h3 : (c_set.set i { c with last_used := find_max c_set + 1 })[i]? = some c := by
    rw [h.2, he]
    exact hi
  rw [List.getElem?_set_self (lt_length_of_getElem? c_set i c hi)] at h3
  simp only [Option.some.injEq] at h3
  have h4 : find_max c_set + 1 = c.last_used := congrArg line.last_used h3
  have h5 : c.last_used ≤ find_max c_set :=
    find_max_loop_ub (-1) c_set c (mem_of_getElem? c_set i c hi) hv
  omega

/-- Two probes in a row for the same set and tag: the first is defined and
returns a single-probe outcome, HIT exactly when the tag was resident; the
second is a HIT, and it changes the cache again. -/
theorem load_twice (sim : csim) (nset tag : Int) (c_set : List line)
    (hn : 0 ≤ nset) (hset : sim.sets[nset.toNat]? = some c_set) (hE : 1 ≤ c_set.length) :
    ∃ ret sim1 sim2, load sim nset tag = some (ret, sim1) ∧
      load sim1 nset tag = some (HIT, sim2) ∧ sim2 ≠ sim1 ∧
      (ret = HIT ∨ ret = MISS ∨ ret = MISSEVICTION) ∧
      ((∃ l ∈ c_set, l.valid = true ∧ l.tag = tag) → ret = HIT) ∧
      ((¬ ∃ l ∈ c_set, l.valid = true ∧ l.tag = tag) → ret = MISS ∨ ret = MISSEVICTION) := by
  obtain ⟨ret, lines, h1, hret⟩ := load_set_status c_set tag hE
  have hres1 := load_set_resident_after c_set tag ret lines h1
  obtain ⟨lines2, h2⟩ := load_set_resident_hit lines tag hres1
  have hne := load_set_hit_changes lines lines2 tag HIT hres1 h2
  have hload1 := load_of_load_set sim nset tag c_set lines ret hn hset h1
  have hset1 : ({ sim with sets := sim.sets.set nset.toNat lines } : csim).sets[nset.toNat]?
      = some lines := sets_after_set sim _ _ _ hset
  have hload2 := load_of_load_set _ nset tag lines lines2 HIT hn hset1 h2
  refine ⟨ret, _, _, hload1, hload2, ?_, hret, ?_, ?_⟩
  · intro he
    have he2 := congrArg csim.sets he
    simp only [List.set_set] at he2
    have he3 : (sim.sets.set nset.toNat lines2)[nset.toNat]? = some lines := by
      rw [he2]
      exact hset1
    rw [sets_after_set sim _ _ _ hset] at he3
    exact hne (Option.some.inj he3)
  · intro hres
    obtain ⟨l0, h0⟩ := load_set_resident_hit c_set tag hres
    rw [h0] at h1
    simp only [Option.some.injEq, Prod.mk.injEq] at h1
    exact h1.1.symm
  · intro hres
    have habs : ∀ l ∈ c_set, ¬ (l.valid = true ∧ l.tag = tag) :=
      fun l hl hh => hres ⟨l, hl, hh⟩
    obtain ⟨r0, l0, h0, hr0⟩ := load_set_absent_miss c_set tag hE habs
    rw [h0] at h1
    simp only [Option.some.injEq, Prod.mk.injEq] at h1
    rw [← h1.1]
    exact hr0

/-- C8, as amended. `modify` performs one probe: on an in-range set with at
least one line, the cache it leaves is the cache left by a single `load`, and
its outcome is the outcome of that load followed by a hit.  A second `load` on
that cache returns HIT and changes the cache again, so the cache left by
`modify` is never the cache left by two loads. -/
theorem modify_is_one_probe (sim : csim) (set tag : Int) (c_set : List line)
    (hn : 0 ≤ set) (hset : sim.sets[set.toNat]? = some c_set) (hE : 1 ≤ c_set.length) :
    ∃ ret sim1 sim2, load sim set tag = some (ret, sim1) ∧
      ((ret = HIT ∧ modify sim set tag = some (HITHIT, sim1)) ∨
        (ret = MISS ∧ modify sim set tag = some (MISSHIT, sim1)) ∨
        (ret = MISSEVICTION ∧ modify sim set tag = some (MISSEVICTIONHIT, sim1))) ∧
      load sim1 set tag = some (HIT, sim2) ∧ sim2 ≠ sim1 := by
  obtain ⟨ret, sim1, sim2, h1, h2, hne, hret, _, _⟩ := load_twice sim set tag c_set hn hset hE
  refine ⟨ret, sim1, sim2, h1, ?_, h2, hne⟩
  rcases hret with h | h | h
  · subst h
    exact Or.inl ⟨rfl, by simp [modify, h1]⟩
  · subst h
    exact Or.inr (Or.inl ⟨rfl, by simp [modify, h1]⟩)
  · subst h
    exact Or.inr (Or.inr ⟨rfl, by simp [modify, h1]⟩)

/-- Instance of C8 (amended) on the half-filled two-line set, tag 9. -/
theorem modify_is_one_probe_witness :
    ∃ ret sim1 sim2, load half_two 0 9 = some (ret, sim1) ∧
      ((ret = HIT ∧ modify half_two 0 9 = some (HITHIT, sim1)) ∨
        (ret = MISS ∧ modify half_two 0 9 = some (MISSHIT, sim1)) ∨
        (ret = MISSEVICTION ∧ modify half_two 0 9 = some (MISSEVICTIONHIT, sim1))) ∧
      load sim1 0 9 = some (HIT, sim2) ∧ sim2 ≠ sim1 :=
  modify_is_one_probe half_two 0 9 half_two_set (by decide) (by rfl) (by decide)

/-- C8 as stated fails on the one-line cache that was never filled: `modify`
for tag 5 leaves the line at recency 1, two loads leave it at recency 2. -/
theorem modify_two_probes_counterexample :
    (modify fresh_one 0 5).map (fun r => r.2) =
        some { fresh_one with sets := [[{ valid := true, tag := 5, last_used := 1 }]] } ∧
      ((load fresh_one 0 5).bind fun r => (load r.2 0 5).map fun q => q.2) =
        some { fresh_one with sets := [[{ valid := true, tag := 5, last_used := 2 }]] } ∧
      (modify fresh_one 0 5).map (fun r => r.2) ≠
        ((load fresh_one 0 5).bind fun r => (load r.2 0 5).map fun q => q.2) := by
  decide

/-- C9. On an in-range set with at least one line, the second of two
consecutive loads of the same set and tag is defined and is a HIT; when the tag
was not resident beforehand the first is MISS or MISSEVICTION. -/
theorem load_again_hits (sim : csim) (set tag : Int) (c_set : List line)
    (hn : 0 ≤ set) (hset : sim.sets[set.toNat]? = some c_set) (hE : 1 ≤ c_set.length) :
    ∃ ret sim1 sim2, load sim set tag = some (ret, sim1) ∧
      load sim1 set tag = some (HIT, sim2) ∧
      ((¬ ∃ l ∈ c_set, l.valid = true ∧ l.tag = tag) → ret = MISS ∨ ret = MISSEVICTION) := by
  obtain ⟨ret, sim1, sim2, h1, h2, _, _, _, habs⟩ :=
    load_twice sim set tag c_set hn hset hE
  exact ⟨ret, sim1, sim2, h1, h2, habs⟩

/-- Instance of C9 on the full two-line set, tag 9. -/
theorem load_again_hits_witness :
    ∃ ret sim1 sim2, load full_two 0 9 = some (ret, sim1) ∧
      load sim1 0 9 = some (HIT, sim2) ∧
      ((¬ ∃ l ∈ full_two_set, l.valid = true ∧ l.tag = 9) →
        ret = MISS ∨ ret = MISSEVICTION) :=
  load_again_hits full_two 0 9 full_two_set (by decide) (by rfl) (by decide)

/-! ## Records with another operation character -/

/-- C10, evaluated on the code. On the fresh cache of geometry
`s = 2, E = 1, b = 4` with the statistics of `main`, the single record `X 10,1`
leaves the cache unchanged but counts one hit; and after the record `L 10,1`,
a miss, the record `X 20,1` counts a second miss. -/
theorem unknown_op_counts :
    simulate_step fresh_2_1_4 zero_status (trace_line.access 'X' 0x10 1) =
        some (fresh_2_1_4, { zero_status with hit := 1 }) ∧
      (simulate fresh_2_1_4 zero_status
          [trace_line.access 'L' 0x10 1, trace_line.access 'X' 0x20 1]).map (fun r => r.2) =
        some { cs := MISS, verbose := 0, hit := 0, miss := 2, evictions := 0 } ∧
      (simulate fresh_2_1_4 zero_status [trace_line.access 'L' 0x10 1]).map (fun r => r.2) =
        some { cs := MISS, verbose := 0, hit := 0, miss := 1, evictions := 0 } := by
  decide

/-! ## Address decoding: set index, tag, round trip -/

theorem to_int_of_lt (x : Nat) (h : x < 2 ^ 31) : to_int x = (x : Int) := by
  unfold to_int
  have h1 : x % 2 ^ 32 = x := Nat.mod_eq_of_lt (by omega)
  rw [h1, if_pos h]

theorem ones_shr (k : Nat) (hk : k ≤ 64) :
    (0xFFFFFFFFFFFFFFFF : Nat) >>> (64 - k) = 2 ^ k - 1 := by
  have h : (0xFFFFFFFFFFFFFFFF : Nat) = 2 ^ 64 - 1 := by norm_num
  rw [h]
  apply Nat.eq_of_testBit_eq
  intro i
  simp only [Nat.testBit_shiftRight, Nat.testBit_two_pow_sub_one]
  congr 1
  apply propext
  omega

theorem and_tag_mask (a k : Nat) (ha : a < 2 ^ 64) :
    a &&& ((0xFFFFFFFFFFFFFFFF : Nat) <<< k) % 2 ^ 64 = (a >>> k) <<< k := by
  have h : (0xFFFFFFFFFFFFFFFF : Nat) = 2 ^ 64 - 1 := by norm_num
  rw [h]
  apply Nat.eq_of_testBit_eq
  intro i
  simp only [Nat.testBit_and, Nat.testBit_mod_two_pow, Nat.testBit_shiftLeft,
    Nat.testBit_two_pow_sub_one, Nat.testBit_shiftRight]
  by_cases hi : i < 64
  · by_cases hk : k ≤ i
    · have h1 : k + (i - k) = i := by omega
      have h2 : i - k < 64 := by omega
      simp [hi, hk, h1, h2]
    · simp [hk]
  · have h1 : a.testBit i = false :=
      Nat.testBit_lt_two_pow (lt_of_lt_of_le ha (Nat.pow_le_pow_right (by omega) (by omega)))
    by_cases hk : k ≤ i
    · have h2 : k + (i - k) = i := by omega
      simp [h1, h2]
    · simp [hk, h1]

theorem and_set_mask (a s b : Nat) (hsb : s + b ≤ 64) :
    (a &&& ((2 ^ s - 1) <<< b) % 2 ^ 64) >>> b = (a >>> b) &&& (2 ^ s - 1) := by
  apply Nat.eq_of_testBit_eq
  intro i
  simp only [Nat.testBit_and, Nat.testBit_mod_two_pow, Nat.testBit_shiftLeft,
    Nat.testBit_two_pow_sub_one, Nat.testBit_shiftRight]
  by_cases hi : i < s
  · have h1 : b + i < 64 := by omega
    have h2 : b + i - b < s := by omega
    simp [hi, h1, h2]
  · have h2 : ¬ (b + i - b < s) := by omega
    simp [hi, h2]

/-- Closed form of `parse_input` on the geometries for which every shift count
lies in `0 .. 63`. -/
theorem parse_input_eq (addr s b : Nat) (hs : 1 ≤ s) (hb : 1 ≤ b) (hsb : s + b ≤ 63) :
    parse_input addr s b =
      some (to_int (((addr % 2 ^ 64) >>> (b + s)) <<< (b + s)),
        to_int (((addr % 2 ^ 64) >>> b) &&& (2 ^ s - 1)),
        to_int ((addr % 2 ^ 64) &&& (2 ^ b - 1))) := by
  have ha : addr % 2 ^ 64 < 2 ^ 64 := Nat.mod_lt _ (by norm_num)
  have e1 : shr64 0xFFFFFFFFFFFFFFFF (64 - (b : Int)) = some (2 ^ b - 1) := by
    unfold shr64
    rw [if_pos (by omega)]
    have : ((64 : Int) - (b : Int)).toNat = 64 - b := by omega
    rw [this, ones_shr b (by omega)]
  have e2 : shr64 0xFFFFFFFFFFFFFFFF (64 - (s : Int)) = some (2 ^ s - 1) := by
    unfold shr64
    rw [if_pos (by omega)]
    have : ((64 : Int) - (s : Int)).toNat = 64 - s := by omega
    rw [this, ones_shr s (by omega)]
  have e3 : shl64 (2 ^ s - 1) (b : Int) = some (((2 ^ s - 1) <<< b) % 2 ^ 64) := by
    unfold shl64
    rw [if_pos (by omega), Int.toNat_ofNat]
  have e4 : ∀ x, shr64 x (b : Int) = some (x >>> b) := by
    intro x
    unfold shr64
    rw [if_pos (by omega), Int.toNat_ofNat]
  have e5 : shl64 0xFFFFFFFFFFFFFFFF ((b : Int) + (s : Int)) =
      some (((0xFFFFFFFFFFFFFFFF : Nat) <<< (b + s)) % 2 ^ 64) := by
    unfold shl64
    rw [if_pos (by omega)]
    have : ((b : Int) + (s : Int)).toNat = b + s := by omega
    rw [this]
  unfold parse_input
  simp only [e1, e2, e3, e4, e5]
  rw [and_tag_mask _ _ ha, and_set_mask _ _ _ (by omega)]

theorem shr_shl_le (a k : Nat) : (a >>> k) <<< k ≤ a := by
  rw [Nat.shiftRight_eq_div_pow, Nat.shiftLeft_eq]
  exact Nat.div_mul_le_self a (2 ^ k)

theorem shr_and_le (a b m : Nat) : (a >>> b) &&& m ≤ a :=
  le_trans Nat.and_le_left (by rw [Nat.shiftRight_eq_div_pow]; exact Nat.div_le_self a _)

/-- The three fields cut out of an address by the masks cover it without
overlap. -/
theorem fields_or (a s b : Nat) :
    (a >>> (b + s)) <<< (b + s) ||| ((a >>> b) &&& (2 ^ s - 1)) <<< b ||| (a &&& (2 ^ b - 1))
      = a := by
  apply Nat.eq_of_testBit_eq
  intro i
  simp only [Nat.testBit_or, Nat.testBit_and, Nat.testBit_shiftLeft,
    Nat.testBit_two_pow_sub_one, Nat.testBit_shiftRight]
  by_cases h1 : i < b
  · have h2 : ¬ (b + s ≤ i) := by omega
    have h3 : ¬ (b ≤ i) := by omega
    simp [h1, h2, h3]
  · by_cases h2 : b + s ≤ i
    · have h3 : b + s + (i - (b + s)) = i := by omega
      have h4 : ¬ (i - b < s) := by omega
      simp [h1, h2, h3, h4]
    · have h3 : b ≤ i := by omega
      have h4 : i - b < s := by omega
      have h5 : b + (i - b) = i := by omega
      simp [h1, h2, h3, h4, h5]

/-- Closed form of `parse_input` for an address below `2^31`, where the three
`int` results hold the field values themselves. -/
theorem parse_input_small (addr s b : Nat) (ha : addr < 2 ^ 31) (hs : 1 ≤ s) (hb : 1 ≤ b)
    (hsb : s + b ≤ 63) :
    parse_input addr s b =
      some ((((addr >>> (b + s)) <<< (b + s) : Nat) : Int),
        (((addr >>> b) &&& (2 ^ s - 1) : Nat) : Int),
        ((addr &&& (2 ^ b - 1) : Nat) : Int)) := by
  have h64 : addr % 2 ^ 64 = addr := Nat.mod_eq_of_lt (by omega)
  rw [parse_input_eq addr s b hs hb hsb, h64,
    to_int_of_lt _ (lt_of_le_of_lt (shr_shl_le addr (b + s)) ha),
    to_int_of_lt _ (lt_of_le_of_lt (shr_and_le addr b _) ha),
    to_int_of_lt _ (lt_of_le_of_lt Nat.and_le_left ha)]

/-- C11, as amended. For every 64-bit address and every geometry with
`1 ≤ s ≤ 31`, `1 ≤ b` and `s + b ≤ 63`, the set index produced by `parse_input`
is `(address >> b) & ((1 << s) - 1)`; it lies in `0 .. 2^s - 1`, so it is in
bounds for any array of `2^s` sets. -/
theorem parse_input_set_index (addr s b : Nat) (ha : addr < 2 ^ 64) (hs : 1 ≤ s)
    (hs31 : s ≤ 31) (hb : 1 ≤ b) (hsb : s + b ≤ 63) :
    ∃ tag set offset, parse_input addr s b = some (tag, set, offset) ∧
      set = (((addr >>> b) &&& (1 <<< s - 1) : Nat) : Int) ∧ 0 ≤ set ∧ set < 2 ^ s ∧
      ∀ sets : List (List line), sets.length = 2 ^ s →
        ∃ c_set, sets[set.toNat]? = some c_set := by
  have h64 : addr % 2 ^ 64 = addr := Nat.mod_eq_of_lt ha
  have hone : (1 : Nat) <<< s = 2 ^ s := by rw [Nat.shiftLeft_eq, Nat.one_mul]
  have hlt : (addr >>> b) &&& (2 ^ s - 1) < 2 ^ s :=
    Nat.and_lt_two_pow _ (Nat.sub_lt (Nat.two_pow_pos s) (by norm_num))
  have h31 : (addr >>> b) &&& (2 ^ s - 1) < 2 ^ 31 :=
    lt_of_lt_of_le hlt (Nat.pow_le_pow_right (by norm_num) hs31)
  refine ⟨_, _, _, parse_input_eq addr s b hs hb hsb, ?_, ?_, ?_, ?_⟩
  · rw [h64, hone, to_int_of_lt _ h31]
  · rw [h64, to_int_of_lt _ h31]
    exact Int.ofNat_nonneg _
  · rw [h64, to_int_of_lt _ h31]
    exact_mod_cast hlt
  · intro sets hlen
    rw [h64, to_int_of_lt _ h31, Int.toNat_ofNat]
    have hi : (addr >>> b) &&& (2 ^ s - 1) < sets.length := by rw [hlen]; exact hlt
    exact ⟨sets[(addr >>> b) &&& (2 ^ s - 1)], List.getElem?_eq_getElem hi⟩

/-- Instance of C11 with `s = 2`, `b = 4` and the address `0x7ff000398`. -/
theorem parse_input_set_index_witness :
    ∃ tag set offset, parse_input 0x7ff000398 (2 : Nat) (4 : Nat) = some (tag, set, offset) ∧
      set = (((0x7ff000398 >>> 4) &&& (1 <<< 2 - 1) : Nat) : Int) ∧ 0 ≤ set ∧
      set < 2 ^ 2 ∧
      ∀ sets : List (List line), sets.length = 2 ^ 2 →
        ∃ c_set, sets[set.toNat]? = some c_set :=
  parse_input_set_index 0x7ff000398 2 4 (by norm_num) (by norm_num) (by norm_num)
    (by norm_num) (by norm_num)

/-- C11 as stated fails for `s = 32`, `b = 1` at the address `2^32`: the field
value is `2^31`, which the `int` result holds as `-2147483648`, below 0.  It
also fails for `s = 0`, where `temp >> (64 - s)` shifts by 64 and no result is
defined. -/
theorem parse_input_set_index_counterexample :
    parse_input 0x100000000 32 1 = some (0, -2147483648, 0) ∧
      ((0x100000000 >>> 1) &&& (1 <<< 32 - 1) : Nat) = 2147483648 ∧
      (¬ ∃ tag set offset, parse_input 0x100000000 32 1 = some (tag, set, offset) ∧ 0 ≤ set) ∧
      parse_input 0x10 0 4 = none := by
  have h : parse_input 0x100000000 32 1 = some (0, -2147483648, 0) := by decide
  refine ⟨h, by decide, ?_, by decide⟩
  rintro ⟨tag, set, offset, h2, h3⟩
  rw [h] at h2
  simp only [Option.some.injEq, Prod.mk.injEq] at h2
  omega

/-- C12, as amended. For every address below `2^31` and every geometry with
`1 ≤ s`, `1 ≤ b` and `s + b ≤ 63`, the tag produced by `parse_input` is the
address with its low `b + s` bits cleared, `(address >> (b + s)) << (b + s)`:
the high bits stay in place and are not shifted down to bit 0. -/
theorem parse_input_tag (addr s b : Nat) (ha : addr < 2 ^ 31) (hs : 1 ≤ s) (hb : 1 ≤ b)
    (hsb : s + b ≤ 63) :
    ∃ tag set offset, parse_input addr s b = some (tag, set, offset) ∧
      tag = (((addr >>> (b + s)) <<< (b + s) : Nat) : Int) ∧
      tag = (addr : Int) - ((addr % 2 ^ (b + s) : Nat) : Int) := by
  refine ⟨_, _, _, parse_input_small addr s b ha hs hb hsb, rfl, ?_⟩
  rw [Nat.shiftRight_eq_div_pow, Nat.shiftLeft_eq]
  have h := Nat.div_add_mod addr (2 ^ (b + s))
  have h2 : addr / 2 ^ (b + s) * 2 ^ (b + s) + addr % 2 ^ (b + s) = addr := by
    rw [Nat.mul_comm]
    exact h
  omega

/-- Instance of C12 with `s = 2`, `b = 4` and the address `0x40`. -/
theorem parse_input_tag_witness :
    ∃ tag set offset, parse_input 0x40 (2 : Nat) (4 : Nat) = some (tag, set, offset) ∧
      tag = (((0x40 >>> (4 + 2)) <<< (4 + 2) : Nat) : Int) ∧
      tag = ((0x40 : Nat) : Int) - ((0x40 % 2 ^ (4 + 2) : Nat) : Int) :=
  parse_input_tag 0x40 2 4 (by norm_num) (by norm_num) (by norm_num) (by norm_num)

/-- C12 as stated fails for `s = 2`, `b = 4` at the address `0x40`: the claim
asks for the tag `0x40 >> 6 = 1`, and `parse_input` stores 64. -/
theorem parse_input_tag_counterexample :
    parse_input 0x40 2 4 = some (64, 0, 0) ∧ (0x40 : Nat) >>> (4 + 2) = 1 ∧
      ¬ ∃ set offset, parse_input 0x40 2 4 = some ((((0x40 : Nat) >>> (4 + 2) : Nat) : Int),
        set, offset) := by
  have h : parse_input 0x40 2 4 = some (64, 0, 0) := by decide
  refine ⟨h, by decide, ?_⟩
  rintro ⟨set, offset, h2⟩
  rw [h] at h2
  simp only [Option.some.injEq, Prod.mk.injEq] at h2
  have h3 := h2.1
  have h4 : (64 : Nat) >>> (4 + 2) = 1 := by decide
  rw [h4] at h3
  omega

/-- C13, as amended. For every address below `2^31` and every geometry with
`1 ≤ s`, `1 ≤ b` and `s + b ≤ 63`, the results `(tag, setIndex, offset)` of
`parse_input` are non-negative and `tag | (setIndex << b) | offset` is the
original address: the tag is already in place and is not shifted again. -/
theorem parse_input_round_trip (addr s b : Nat) (ha : addr < 2 ^ 31) (hs : 1 ≤ s)
    (hb : 1 ≤ b) (hsb : s + b ≤ 63) :
    ∃ tag set offset : Nat,
      parse_input addr s b = some ((tag : Int), (set : Int), (offset : Int)) ∧
      tag ||| set <<< b ||| offset = addr :=
  ⟨_, _, _, parse_input_small addr s b ha hs hb hsb, fields_or addr s b⟩

/-- Instance of C13 with `s = 2`, `b = 4` and the address `0x7b`. -/
theorem parse_input_round_trip_witness :
    ∃ tag set offset : Nat,
      parse_input 0x7b (2 : Nat) (4 : Nat) = some ((tag : Int), (set : Int), (offset : Int)) ∧
      tag ||| set <<< 4 ||| offset = 0x7b :=
  parse_input_round_trip 0x7b 2 4 (by norm_num) (by norm_num) (by norm_num) (by norm_num)

/-- C13 as stated fails for `s = 2`, `b = 4` at the address `0x40`: the results
are tag 64, set 0, offset 0, and `(64 << 6) | (0 << 4) | 0` is `0x1000`. -/
theorem parse_input_round_trip_counterexample :
    parse_input 0x40 2 4 = some (64, 0, 0) ∧
      ((64 : Nat) <<< (4 + 2) ||| (0 : Nat) <<< 4 ||| 0) = 0x1000 ∧
      ((64 : Nat) <<< (4 + 2) ||| (0 : Nat) <<< 4 ||| 0) ≠ 0x40 := by
  decide

/-! ## One probe, as a step on the state -/

/-- What a defined probe does to the set: one line `old` at an index `i` is
replaced by a valid line `x` with the requested tag and a recency above that of
every valid line; the outcome tells what `old` was. -/
theorem load_set_step (c_set : List line) (tag : Int) (ret : cache_status) (lines : List line)
    (h : load_set c_set tag = some (ret, lines)) :
    ∃ i old x, c_set[i]? = some old ∧ lines = c_set.set i x ∧ x.valid = true ∧ x.tag = tag ∧
      (∀ l ∈ c_set, l.valid = true → l.last_used < x.last_used) ∧
      ((ret = HIT ∧ old.valid = true ∧ old.tag = tag) ∨
        (ret = MISS ∧ old.valid = false ∧ 1 ≤ x.last_used ∧
          ∀ l ∈ c_set, ¬ (l.valid = true ∧ l.tag = tag)) ∨
        (ret = MISSEVICTION ∧ old.valid = true ∧
          ∀ l ∈ c_set, ¬ (l.valid = true ∧ l.tag = tag))) := by
  have hub : ∀ l ∈ c_set, l.valid = true → l.last_used < find_max c_set + 1 := by
    intro l hl hv
    have := find_max_loop_ub (-1) c_set l hl hv
    have h2 : find_max c_set = find_max_loop (-1) c_set := rfl
    omega
  by_cases hres : ∃ l ∈ c_set, l.valid = true ∧ l.tag = tag
  · obtain ⟨i, old, hi, hv, ht, _, h2⟩ := load_set_hit c_set tag hres
    rw [h2] at h
    simp only [Option.some.injEq, Prod.mk.injEq] at h
    exact ⟨i, old, _, hi, h.2.symm, hv, ht, hub, Or.inl ⟨h.1.symm, hv, ht⟩⟩
  · have habs : ∀ l ∈ c_set, ¬ (l.valid = true ∧ l.tag = tag) :=
      fun l hl hh => hres ⟨l, hl, hh⟩
    by_cases hinv : ∃ l ∈ c_set, l.valid = false
    · obtain ⟨i, old, hi, hv, _, h2⟩ := load_set_miss c_set tag habs hinv
      rw [h2] at h
      simp only [Option.some.injEq, Prod.mk.injEq] at h
      have hge : (-1 : Int) ≤ find_max c_set := find_max_loop_ge (-1) c_set
      refine ⟨i, old, _, hi, h.2.symm, rfl, rfl, ?_, Or.inr (Or.inl ⟨h.1.symm, hv, ?_, habs⟩)⟩
      · intro l hl hlv
        have := hub l hl hlv
        show l.last_used < if find_max c_set = -1 then 1 else find_max c_set + 1
        split <;> omega
      · show 1 ≤ if find_max c_set = -1 then 1 else find_max c_set + 1
        split <;> omega
    · have hfull : ∀ l ∈ c_set, l.valid = true := by
        intro l hl
        by_contra hv
        exact hinv ⟨l, hl, by simpa using hv⟩
      have hE : 1 ≤ c_set.length := by
        cases c_set with
        | nil => simp [load_set, load_scan, find_empty, find_empty_loop, find_lru] at h
        | cons a rest => simp
      obtain ⟨i, old, hi, _, _, h2⟩ := load_set_evict c_set tag hE habs hfull
      rw [h2] at h
      simp only [Option.some.injEq, Prod.mk.injEq] at h
      exact ⟨i, old, _, hi, h.2.symm, rfl, rfl, hub,
        Or.inr (Or.inr ⟨h.1.symm, hfull old (mem_of_getElem? c_set i old hi), habs⟩)⟩

/-- A defined probe of the cache is a defined probe of the addressed set. -/
theorem load_inv (sim sim1 : csim) (nset tag : Int) (ret : cache_status)
    (h : load sim nset tag = some (ret, sim1)) :
    ∃ c lines, 0 ≤ nset ∧ sim.sets[nset.toNat]? = some c ∧
      load_set c tag = some (ret, lines) ∧
      sim1 = { sim with sets := sim.sets.set nset.toNat lines } := by
  unfold load at h
  by_cases hn : nset < 0
  · simp [hn] at h
  · rw [if_neg hn] at h
    cases hc : sim.sets[nset.toNat]? with
    | none => simp [hc] at h
    | some c =>
      simp only [hc] at h
      cases hl : load_set c tag with
      | none => simp [hl] at h
      | some r =>
        obtain ⟨r1, lines⟩ := r
        simp only [hl, Option.some.injEq, Prod.mk.injEq] at h
        exact ⟨c, lines, by omega, rfl, by rw [← h.1, hl], h.2.symm⟩

/-- The cache and the record of statistics after the dispatch of one access, in
terms of the probe it makes. -/
theorem simulate_access_inv (sim sim1 : csim) (stat stat1 : status) (op : Char)
    (set tag : Int) (h : simulate_access sim stat op set tag = some (sim1, stat1)) :
    (sim1 = sim ∧ stat1 = (get_status stat).1 ∧ op ≠ 'L' ∧ op ≠ 'M' ∧ op ≠ 'S') ∨
    (∃ ret, load sim set tag = some (ret, sim1) ∧
      (((op = 'L' ∨ op = 'S') ∧ stat1 = (get_status { stat with cs := ret }).1) ∨
        (op = 'M' ∧
          ((ret = HIT ∧ stat1 = (get_status { stat with cs := HITHIT }).1) ∨
            (ret = MISS ∧ stat1 = (get_status { stat with cs := MISSHIT }).1) ∨
            (ret = MISSEVICTION ∧
              stat1 = (get_status { stat with cs := MISSEVICTIONHIT }).1))))) := by
  unfold simulate_access at h
  by_cases hL : op = 'L'
  · right
    subst hL
    cases hl : load sim set tag with
    | none => simp [hl] at h
    | some r =>
      obtain ⟨ret, s1⟩ := r
      simp [hl] at h
      exact ⟨ret, by rw [h.1], Or.inl ⟨Or.inl rfl, h.2.symm⟩⟩
  · by_cases hM : op = 'M'
    · right
      subst hM
      cases hl : load sim set tag with
      | none => simp [modify, hl] at h
      | some r =>
        obtain ⟨ret, s1⟩ := r
        obtain ⟨c, lines, _, _, hls, _⟩ := load_inv sim s1 set tag ret hl
        obtain ⟨_, _, _, _, _, _, _, _, hret⟩ := load_set_step c tag ret lines hls
        rcases hret with ⟨hr, _⟩ | ⟨hr, _⟩ | ⟨hr, _⟩
        · subst hr
          simp [modify, hl] at h
          exact ⟨HIT, by rw [h.1], Or.inr ⟨rfl, Or.inl ⟨rfl, h.2.symm⟩⟩⟩
        · subst hr
          simp [modify, hl] at h
          exact ⟨MISS, by rw [h.1], Or.inr ⟨rfl, Or.inr (Or.inl ⟨rfl, h.2.symm⟩)⟩⟩
        · subst hr
          simp [modify, hl] at h
          exact ⟨MISSEVICTION, by rw [h.1], Or.inr ⟨rfl, Or.inr (Or.inr ⟨rfl, h.2.symm⟩)⟩⟩
    · by_cases hS : op = 'S'
      · right
        subst hS
        cases hl : load sim set tag with
        | none => simp [store, hl] at h
        | some r =>
          obtain ⟨ret, s1⟩ := r
          simp [store, hl] at h
          exact ⟨ret, by rw [h.1], Or.inl ⟨Or.inr rfl, h.2.symm⟩⟩
      · left
        simp [hL, hM, hS] at h
        exact ⟨h.1.symm, h.2.symm, hL, hM, hS⟩

/-! ## Shape of the cache and number of valid lines along a probe -/

theorem set_same {α : Type} (xs : List α) (n : Nat) (a : α) (h : xs[n]? = some a) :
    xs.set n a = xs := by
  induction xs generalizing n with
  | nil => rfl
  | cons x rest ih =>
    cases n with
    | zero =>
      simp only [List.getElem?_cons_zero, Option.some.injEq] at h
      rw [List.set_cons_zero, h]
    | succ k =>
      simp only [List.getElem?_cons_succ] at h
      rw [List.set_cons_succ, ih k h]

theorem valid_count_le (c_set : List line) : valid_count c_set ≤ c_set.length := by
  induction c_set with
  | nil => simp [valid_count]
  | cons l rest ih =>
    simp only [valid_count, List.length_cons]
    split <;> omega

theorem valid_count_set (c_set : List line) (i : Nat) (old x : line)
    (h : c_set[i]? = some old) :
    valid_count (c_set.set i x) + (if old.valid = true then 1 else 0) =
      valid_count c_set + (if x.valid = true then 1 else 0) := by
  induction c_set generalizing i with
  | nil => simp at h
  | cons l rest ih =>
    cases i with
    | zero =>
      simp only [List.getElem?_cons_zero, Option.some.injEq] at h
      subst h
      simp only [List.set_cons_zero, valid_count]
      omega
    | succ k =>
      simp only [List.getElem?_cons_succ] at h
      have := ih k h
      simp only [List.set_cons_succ, valid_count]
      omega

theorem valid_total_set (sets : List (List line)) (n : Nat) (c_set lines : List line)
    (h : sets[n]? = some c_set) :
    valid_total (sets.set n lines) + valid_count c_set =
      valid_total sets + valid_count lines := by
  induction sets generalizing n with
  | nil => simp at h
  | cons a rest ih =>
    cases n with
    | zero =>
      simp only [List.getElem?_cons_zero, Option.some.injEq] at h
      subst h
      simp only [List.set_cons_zero, valid_total]
      omega
    | succ k =>
      simp only [List.getElem?_cons_succ] at h
      have := ih k h
      simp only [List.set_cons_succ, valid_total]
      omega

theorem valid_total_le (sets : List (List line)) (E : Nat)
    (h : ∀ c_set ∈ sets, c_set.length = E) : valid_total sets ≤ sets.length * E := by
  induction sets with
  | nil => simp [valid_total]
  | cons a rest ih =>
    have h1 := valid_count_le a
    have h2 : a.length = E := h a (List.mem_cons_self _ _)
    have h3 := ih (fun c hc => h c (List.mem_cons_of_mem _ hc))
    simp only [valid_total, List.length_cons]
    rw [Nat.add_mul]
    omega

theorem valid_count_zeroed (E : Nat) :
    valid_count (List.replicate E { valid := false, tag := 0, last_used := 0 }) = 0 := by
  induction E with
  | zero => rfl
  | succ k ih => simp [List.replicate_succ, valid_count, ih]

theorem valid_total_zeroed (N E : Nat) :
    valid_total (List.replicate N
      (List.replicate E { valid := false, tag := 0, last_used := 0 })) = 0 := by
  induction N with
  | zero => rfl
  | succ k ih => simp [List.replicate_succ, valid_total, ih, valid_count_zeroed]

/-- A probe changes neither the geometry fields nor the sizes of the sets. -/
theorem load_shape (sim sim1 : csim) (nset tag : Int) (ret : cache_status)
    (h : load sim nset tag = some (ret, sim1)) :
    sim1.E = sim.E ∧ sim1.s = sim.s ∧ sim1.b = sim.b ∧
      sim1.sets.map List.length = sim.sets.map List.length := by
  obtain ⟨c, lines, _, hc, hl, he⟩ := load_inv sim sim1 nset tag ret h
  subst he
  refine ⟨rfl, rfl, rfl, ?_⟩
  have hlen := load_set_length c tag ret lines hl
  have h2 : (sim.sets.map List.length)[nset.toNat]? = some lines.length := by
    rw [List.getElem?_map, hc, hlen]
    rfl
  show (sim.sets.set nset.toNat lines).map List.length = sim.sets.map List.length
  rw [List.map_set, set_same _ _ _ h2]

/-- A probe leaves every valid line valid, at the same place. -/
theorem load_valid_mono (sim sim1 : csim) (nset tag : Int) (ret : cache_status)
    (h : load sim nset tag = some (ret, sim1)) (i j : Nat) (c_set : List line) (l : line)
    (hc : sim.sets[i]? = some c_set) (hl : c_set[j]? = some l) (hv : l.valid = true) :
    ∃ c1 l1, sim1.sets[i]? = some c1 ∧ c1[j]? = some l1 ∧ l1.valid = true := by
  obtain ⟨c0, lines, _, hc0, hls, he⟩ := load_inv sim sim1 nset tag ret h
  obtain ⟨k, old, x, hk, hlines, hxv, _, _, _⟩ := load_set_step c0 tag ret lines hls
  subst he
  by_cases hi : nset.toNat = i
  · subst hi
    have hcc : c_set = c0 := by
      rw [hc0] at hc
      exact (Option.some.inj hc).symm
    subst hcc
    refine ⟨lines, ?_⟩
    have h1 : (sim.sets.set nset.toNat lines)[nset.toNat]? = some lines :=
      sets_after_set sim _ _ _ hc0
    by_cases hj : k = j
    · subst hj
      refine ⟨x, h1, ?_, hxv⟩
      rw [hlines, List.getElem?_set_self (lt_length_of_getElem? c_set k old hk)]
    · refine ⟨l, h1, ?_, hv⟩
      rw [hlines, List.getElem?_set_ne hj]
      exact hl
  · refine ⟨c_set, l, ?_, hl, hv⟩
    show (sim.sets.set nset.toNat lines)[i]? = some c_set
    rw [List.getElem?_set_ne hi]
    exact hc

/-- Change of the number of valid lines along a probe, by outcome. -/
theorem load_valid_total (sim sim1 : csim) (nset tag : Int) (ret : cache_status)
    (h : load sim nset tag = some (ret, sim1)) :
    (ret = HIT ∧ valid_total sim1.sets = valid_total sim.sets) ∨
    (ret = MISS ∧ valid_total sim1.sets = valid_total sim.sets + 1) ∨
    (ret = MISSEVICTION ∧ valid_total sim1.sets = valid_total sim.sets) := by
  obtain ⟨c0, lines, _, hc0, hls, he⟩ := load_inv sim sim1 nset tag ret h
  obtain ⟨k, old, x, hk, hlines, hxv, _, _, hret⟩ := load_set_step c0 tag ret lines hls
  subst he
  have h1 := valid_total_set sim.sets nset.toNat c0 lines hc0
  have h2 := valid_count_set c0 k old x hk
  rw [← hlines] at h2
  simp only [hxv, if_true] at h2
  show (ret = HIT ∧ valid_total (sim.sets.set nset.toNat lines) = valid_total sim.sets) ∨
    (ret = MISS ∧ valid_total (sim.sets.set nset.toNat lines) = valid_total sim.sets + 1) ∨
    (ret = MISSEVICTION ∧
      valid_total (sim.sets.set nset.toNat lines) = valid_total sim.sets)
  rcases hret with ⟨hr, hov, _⟩ | ⟨hr, hov, _⟩ | ⟨hr, hov, _⟩
  · simp only [hov, if_true] at h2
    exact Or.inl ⟨hr, by omega⟩
  · simp only [hov, Bool.false_eq_true, if_false] at h2
    exact Or.inr (Or.inl ⟨hr, by omega⟩)
  · simp only [hov, if_true] at h2
    exact Or.inr (Or.inr ⟨hr, by omega⟩)

/-! ## Runs of accesses: the shape of the cache -/

theorem lengths_of_map_eq (sets sets1 : List (List line))
    (h : sets1.map List.length = sets.map List.length) :
    sets1.length = sets.length ∧
      ∀ P : Nat → Prop, (∀ c_set ∈ sets, P c_set.length) → ∀ c_set ∈ sets1, P c_set.length := by
  constructor
  · have := congrArg List.length h
    simpa using this
  · intro P hP c1 hc1
    have h1 : c1.length ∈ sets1.map List.length := List.mem_map_of_mem _ hc1
    rw [h] at h1
    obtain ⟨c0, hc0, he⟩ := List.mem_map.mp h1
    rw [← he]
    exact hP c0 hc0

/-- The dispatch of one access on an in-range set of a cache whose sets all have
at least one line is defined. -/
theorem simulate_access_defined (sim : csim) (stat : status) (op : Char) (set tag : Int)
    (hn : 0 ≤ set) (hlt : set < sim.sets.length) (hE : ∀ c_set ∈ sim.sets, 1 ≤ c_set.length) :
    ∃ sim1 stat1, simulate_access sim stat op set tag = some (sim1, stat1) := by
  have hi : set.toNat < sim.sets.length := by omega
  have hset : sim.sets[set.toNat]? = some sim.sets[set.toNat] := List.getElem?_eq_getElem hi
  obtain ⟨ret, sim1, hload, hret⟩ :=
    load_defined sim set tag _ hn hset (hE _ (List.getElem_mem hi))
  obtain ⟨hL, hH, hMi, hEv⟩ := simulate_access_of_load sim sim1 stat set tag ret hload
  by_cases h1 : op = 'L'
  · subst h1
    exact ⟨_, _, hL⟩
  · by_cases h2 : op = 'M'
    · subst h2
      rcases hret with h | h | h
      · exact ⟨_, _, hH h⟩
      · exact ⟨_, _, hMi h⟩
      · exact ⟨_, _, hEv h⟩
    · by_cases h3 : op = 'S'
      · subst h3
        refine ⟨sim1, (get_status { stat with cs := ret }).1, ?_⟩
        simp [simulate_access, store, hload]
      · exact ⟨sim, (get_status stat).1, by simp [simulate_access, h1, h2, h3]⟩

/-- The dispatch of one access changes neither the geometry fields nor the
sizes of the sets, and leaves every valid line valid. -/
theorem simulate_access_shape (sim sim1 : csim) (stat stat1 : status) (op : Char)
    (set tag : Int) (h : simulate_access sim stat op set tag = some (sim1, stat1)) :
    (sim1.E = sim.E ∧ sim1.s = sim.s ∧ sim1.b = sim.b ∧
        sim1.sets.map List.length = sim.sets.map List.length) ∧
      ∀ (i j : Nat) (c_set : List line) (l : line), sim.sets[i]? = some c_set →
        c_set[j]? = some l → l.valid = true →
        ∃ c1 l1, sim1.sets[i]? = some c1 ∧ c1[j]? = some l1 ∧ l1.valid = true := by
  rcases simulate_access_inv sim sim1 stat stat1 op set tag h with ⟨he, _⟩ | ⟨ret, hl, _⟩
  · subst he
    exact ⟨⟨rfl, rfl, rfl, rfl⟩, fun i j c l hc hl hv => ⟨c, l, hc, hl, hv⟩⟩
  · exact ⟨load_shape sim sim1 set tag ret hl,
      fun i j c l hc hl2 hv => load_valid_mono sim sim1 set tag ret hl i j c l hc hl2 hv⟩

/-- A run of accesses on in-range sets is defined, keeps the sizes of the sets
and leaves every valid line valid. -/
theorem simulate_accesses_shape (ops : List (Char × Int × Int)) :
    ∀ (sim : csim) (stat : status), (∀ c_set ∈ sim.sets, 1 ≤ c_set.length) →
      (∀ a ∈ ops, 0 ≤ a.2.1 ∧ a.2.1 < sim.sets.length) →
      ∃ sim1 stat1, simulate_accesses sim stat ops = some (sim1, stat1) ∧
        (sim1.E = sim.E ∧ sim1.s = sim.s ∧ sim1.b = sim.b ∧
          sim1.sets.map List.length = sim.sets.map List.length) ∧
        ∀ (i j : Nat) (c_set : List line) (l : line), sim.sets[i]? = some c_set →
          c_set[j]? = some l → l.valid = true →
          ∃ c1 l1, sim1.sets[i]? = some c1 ∧ c1[j]? = some l1 ∧ l1.valid = true := by
  induction ops with
  | nil =>
    intro sim stat _ _
    exact ⟨sim, stat, rfl, ⟨rfl, rfl, rfl, rfl⟩, fun i j c l hc hl hv => ⟨c, l, hc, hl, hv⟩⟩
  | cons a rest ih =>
    intro sim stat hE hin
    obtain ⟨hn, hlt⟩ := hin a (List.mem_cons_self _ _)
    obtain ⟨simA, statA, hA⟩ := simulate_access_defined sim stat a.1 a.2.1 a.2.2 hn hlt hE
    obtain ⟨⟨hEA, hsA, hbA, hmapA⟩, hmonoA⟩ :=
      simulate_access_shape sim simA stat statA a.1 a.2.1 a.2.2 hA
    obtain ⟨hlenA, hallA⟩ := lengths_of_map_eq sim.sets simA.sets hmapA
    have hE2 : ∀ c_set ∈ simA.sets, 1 ≤ c_set.length := hallA (fun n => 1 ≤ n) hE
    have hin2 : ∀ a2 ∈ rest, 0 ≤ a2.2.1 ∧ a2.2.1 < simA.sets.length := by
      intro a2 ha2
      rw [hlenA]
      exact hin a2 (List.mem_cons_of_mem _ ha2)
    obtain ⟨sim1, stat1, hrun, ⟨hE1, hs1, hb1, hmap1⟩, hmono1⟩ := ih simA statA hE2 hin2
    refine ⟨sim1, stat1, ?_, ⟨hE1.trans hEA, hs1.trans hsA, hb1.trans hbA,
      hmap1.trans hmapA⟩, ?_⟩
    · simp only [simulate_accesses, hA]
      exact hrun
    · intro i j c l hc hl hv
      obtain ⟨c1, l1, hc1, hl1, hv1⟩ := hmonoA i j c l hc hl hv
      exact hmono1 i j c1 l1 hc1 hl1 hv1

/-- C17. For every run of accesses (whatever their operation characters, so in
particular loads, stores and modifies) on in-range sets of a cache whose sets
have at least one line: the run is defined; the number of sets and the number
of lines of each set are those of the start, so when every set has `E` lines
every set still has `E` lines and holds at most `E` valid ones; and a line that
was valid at the start is valid at the end. -/
theorem accesses_keep_shape (sim : csim) (stat : status) (ops : List (Char × Int × Int))
    (hE : ∀ c_set ∈ sim.sets, 1 ≤ c_set.length)
    (hin : ∀ a ∈ ops, 0 ≤ a.2.1 ∧ a.2.1 < sim.sets.length) :
    ∃ sim1 stat1, simulate_accesses sim stat ops = some (sim1, stat1) ∧
      sim1.sets.length = sim.sets.length ∧
      sim1.sets.map List.length = sim.sets.map List.length ∧
      (∀ E : Nat, (∀ c_set ∈ sim.sets, c_set.length = E) →
        ∀ c_set ∈ sim1.sets, c_set.length = E ∧ valid_count c_set ≤ E) ∧
      ∀ (i j : Nat) (c_set : List line) (l : line), sim.sets[i]? = some c_set →
        c_set[j]? = some l → l.valid = true →
        ∃ c1 l1, sim1.sets[i]? = some c1 ∧ c1[j]? = some l1 ∧ l1.valid = true := by
  obtain ⟨sim1, stat1, hrun, ⟨_, _, _, hmap⟩, hmono⟩ :=
    simulate_accesses_shape ops sim stat hE hin
  obtain ⟨hlen, hall⟩ := lengths_of_map_eq sim.sets sim1.sets hmap
  refine ⟨sim1, stat1, hrun, hlen, hmap, ?_, hmono⟩
  intro E hallE c1 hc1
  have h1 : c1.length = E := hall (fun n => n = E) hallE c1 hc1
  exact ⟨h1, h1 ▸ valid_count_le c1⟩

/-- Instance of C17: a load, a modify and a store on the half-filled two-line
set. -/
theorem accesses_keep_shape_witness :
    ∃ sim1 stat1,
      simulate_accesses half_two zero_status [('L', 0, 9), ('M', 0, 7), ('S', 0, 5)] =
        some (sim1, stat1) ∧
      sim1.sets.length = half_two.sets.length ∧
      sim1.sets.map List.length = half_two.sets.map List.length ∧
      (∀ E : Nat, (∀ c_set ∈ half_two.sets, c_set.length = E) →
        ∀ c_set ∈ sim1.sets, c_set.length = E ∧ valid_count c_set ≤ E) ∧
      ∀ (i j : Nat) (c_set : List line) (l : line), half_two.sets[i]? = some c_set →
        c_set[j]? = some l → l.valid = true →
        ∃ c1 l1, sim1.sets[i]? = some c1 ∧ c1[j]? = some l1 ∧ l1.valid = true :=
  accesses_keep_shape half_two zero_status [('L', 0, 9), ('M', 0, 7), ('S', 0, 5)]
    (by decide) (by decide)

/-! ## Recency along the runs -/

theorem recency_inv_zeroed (E : Nat) :
    recency_inv (List.replicate E { valid := false, tag := 0, last_used := 0 }) := by
  refine ⟨?_, ?_, ?_⟩
  · intro l hl hv
    rw [(List.mem_replicate.mp hl).2] at hv
    exact Bool.noConfusion hv
  · intro l hl _
    rw [(List.mem_replicate.mp hl).2]
  · intro i j li lj hi _ hv _ _
    have := mem_of_getElem? _ i li hi
    rw [(List.mem_replicate.mp this).2] at hv
    exact Bool.noConfusion hv

/-- The line written by a probe is above every other line of the set in
recency, and no other valid line holds its tag. -/
theorem load_set_top (c_set lines : List line) (tag : Int) (ret : cache_status)
    (hinv : recency_inv c_set) (h : load_set c_set tag = some (ret, lines)) :
    ∃ i x, lines = c_set.set i x ∧ lines[i]? = some x ∧ x.valid = true ∧ x.tag = tag ∧
      1 ≤ x.last_used ∧
      ∀ j l, j ≠ i → lines[j]? = some l →
        c_set[j]? = some l ∧ l.last_used < x.last_used ∧ ¬ (l.valid = true ∧ l.tag = tag) := by
  obtain ⟨h1, h0, hpair⟩ := hinv
  obtain ⟨i, old, x, hi, hlines, hxv, hxt, hlt, hret⟩ := load_set_step c_set tag ret lines h
  have hold : old ∈ c_set := mem_of_getElem? c_set i old hi
  have hx1 : 1 ≤ x.last_used := by
    rcases hret with ⟨_, hov, _⟩ | ⟨_, _, hge, _⟩ | ⟨_, hov, _⟩
    · have := h1 old hold hov
      have := hlt old hold hov
      omega
    · exact hge
    · have := h1 old hold hov
      have := hlt old hold hov
      omega
  refine ⟨i, x, hlines, ?_, hxv, hxt, hx1, ?_⟩
  · rw [hlines, List.getElem?_set_self (lt_length_of_getElem? c_set i old hi)]
  · intro j l hj hl
    rw [hlines, List.getElem?_set_ne (Ne.symm hj)] at hl
    have hmem : l ∈ c_set := mem_of_getElem? c_set j l hl
    refine ⟨hl, ?_, ?_⟩
    · cases hv : l.valid with
      | true => exact hlt l hmem hv
      | false =>
        rw [h0 l hmem hv]
        omega
    · rintro ⟨hv, ht⟩
      rcases hret with ⟨_, hov, hot⟩ | ⟨_, _, _, habs⟩ | ⟨_, _, habs⟩
      · exact hj (hpair j i l old hl hi hv hov (Or.inr (ht.trans hot.symm)))
      · exact habs l hmem ⟨hv, ht⟩
      · exact habs l hmem ⟨hv, ht⟩

theorem load_set_recency_inv (c_set lines : List line) (tag : Int) (ret : cache_status)
    (hinv : recency_inv c_set) (h : load_set c_set tag = some (ret, lines)) :
    recency_inv lines := by
  obtain ⟨i, x, hlines, hxi, hxv, hxt, hx1, hoth⟩ := load_set_top c_set lines tag ret hinv h
  obtain ⟨h1, h0, hpair⟩ := hinv
  refine ⟨?_, ?_, ?_⟩
  · intro l hl hv
    rw [hlines] at hl
    rcases List.mem_or_eq_of_mem_set hl with hm | he
    · exact h1 l hm hv
    · rw [he]
      exact hx1
  · intro l hl hv
    rw [hlines] at hl
    rcases List.mem_or_eq_of_mem_set hl with hm | he
    · exact h0 l hm hv
    · rw [he, hxv] at hv
      exact Bool.noConfusion hv
  · intro a b la lb ha hb hva hvb heq
    by_cases hai : a = i
    · by_cases hbi : b = i
      · rw [hai, hbi]
      · subst hai
        have hla : la = x := by
          rw [hxi] at ha
          exact (Option.some.inj ha).symm
        obtain ⟨_, hlt, hnt⟩ := hoth b lb hbi hb
        rcases heq with he | he
        · rw [hla] at he
          omega
        · rw [hla, hxt] at he
          exact absurd ⟨hvb, he.symm⟩ hnt
    · by_cases hbi : b = i
      · subst hbi
        have hlb : lb = x := by
          rw [hxi] at hb
          exact (Option.some.inj hb).symm
        obtain ⟨_, hlt, hnt⟩ := hoth a la hai ha
        rcases heq with he | he
        · rw [hlb] at he
          omega
        · rw [hlb, hxt] at he
          exact absurd ⟨hva, he⟩ hnt
      · obtain ⟨hca, _, _⟩ := hoth a la hai ha
        obtain ⟨hcb, _, _⟩ := hoth b lb hbi hb
        exact hpair a b la lb hca hcb hva hvb heq

/-- A property of the cache kept by every probe is kept by every run of
accesses. -/
theorem simulate_accesses_preserves (P : csim → Prop)
    (hP : ∀ (sim sim1 : csim) (nset tag : Int) (ret : cache_status),
      P sim → load sim nset tag = some (ret, sim1) → P sim1)
    (ops : List (Char × Int × Int)) :
    ∀ (sim sim1 : csim) (stat stat1 : status), P sim →
      simulate_accesses sim stat ops = some (sim1, stat1) → P sim1 := by
  induction ops with
  | nil =>
    intro sim sim1 stat stat1 hp h
    simp only [simulate_accesses, Option.some.injEq, Prod.mk.injEq] at h
    rw [← h.1]
    exact hp
  | cons a rest ih =>
    intro sim sim1 stat stat1 hp h
    rw [simulate_accesses] at h
    cases hA : simulate_access sim stat a.1 a.2.1 a.2.2 with
    | none => simp [hA] at h
    | some r =>
      obtain ⟨simA, statA⟩ := r
      simp only [hA] at h
      refine ih simA sim1 statA stat1 ?_ h
      rcases simulate_access_inv sim simA stat statA a.1 a.2.1 a.2.2 hA with
        ⟨he, _⟩ | ⟨ret, hl, _⟩
      · rw [he]
        exact hp
      · exact hP sim simA a.2.1 a.2.2 ret hp hl

/-- A probe keeps the recency invariant of every set, and the common size of the
sets. -/
theorem load_keeps_inv (n : Nat) (sim sim1 : csim) (nset tag : Int) (ret : cache_status)
    (hp : ∀ c_set ∈ sim.sets, recency_inv c_set ∧ c_set.length = n)
    (h : load sim nset tag = some (ret, sim1)) :
    ∀ c_set ∈ sim1.sets, recency_inv c_set ∧ c_set.length = n := by
  obtain ⟨c0, lines, _, hc0, hls, he⟩ := load_inv sim sim1 nset tag ret h
  subst he
  intro c1 hc1
  have hc0m : c0 ∈ sim.sets := by
    obtain ⟨hi, hget⟩ := List.getElem?_eq_some_iff.mp hc0
    exact hget ▸ List.getElem_mem hi
  rcases List.mem_or_eq_of_mem_set hc1 with hm | hq
  · exact hp c1 hm
  · rw [hq]
    exact ⟨load_set_recency_inv c0 lines tag ret (hp c0 hc0m).1 hls,
      (load_set_length c0 tag ret lines hls).trans (hp c0 hc0m).2⟩

/-- The cache built by `initialize_sim`: every line of every set is zeroed, and
every set has `E` lines. -/
theorem initialize_sim_inv (g sim0 : csim) (h : initialize_sim g = some sim0) :
    0 ≤ g.E ∧ ∀ c_set ∈ sim0.sets,
      c_set = List.replicate g.E.toNat { valid := false, tag := 0, last_used := 0 } := by
  unfold initialize_sim at h
  split at h
  · rename_i hc
    simp only [Option.some.injEq] at h
    rw [← h]
    refine ⟨hc.2.2, ?_⟩
    intro c hcm
    exact (List.mem_replicate.mp hcm).2
  · simp at h

/-- In every cache state reached from the cache built by `initialize_sim` by a
run of accesses, the valid lines have a non-negative recency (in fact at least
1). -/
theorem reachable_recency_nonneg (g sim0 sim : csim) (stat stat1 : status)
    (ops : List (Char × Int × Int))
    (hinit : initialize_sim g = some sim0)
    (hrun : simulate_accesses sim0 stat ops = some (sim, stat1)) :
    ∀ c_set ∈ sim.sets, ∀ l ∈ c_set, l.valid = true → 0 ≤ l.last_used := by
  obtain ⟨_, hzero⟩ := initialize_sim_inv g sim0 hinit
  have h0 : ∀ c_set ∈ sim0.sets, recency_inv c_set ∧ c_set.length = g.E.toNat := by
    intro c hc
    rw [hzero c hc]
    exact ⟨recency_inv_zeroed _, List.length_replicate _ _⟩
  have hinv : ∀ c_set ∈ sim.sets, recency_inv c_set ∧ c_set.length = g.E.toNat :=
    simulate_accesses_preserves
      (fun s => ∀ c_set ∈ s.sets, recency_inv c_set ∧ c_set.length = g.E.toNat)
      (fun s s1 nset tag ret hp hl => load_keeps_inv g.E.toNat s s1 nset tag ret hp hl)
      ops sim0 sim stat stat1 h0 hrun
  intro c_set hc l hl hv
  have := (hinv c_set hc).1.1 l hl hv
  omega

/-- C18. In every cache state reached from the cache built by `initialize_sim`
by a run of accesses, in every set: every valid line has recency at least 1; two
valid lines at different indices have different recencies; and when the set is
full the line found by `find_lru` has a recency strictly below that of every
other line, so the victim is unique and the choice of the lowest index among
equal recencies never comes into play.  Moreover a probe of an in-range set
(`E ≥ 1`) is defined, and right after it the line holding the tag is valid and
has a recency strictly above that of every other line of its set, none of which
holds the tag in a valid line. -/
theorem recency_strictly_increasing (g sim0 sim : csim) (stat stat1 : status)
    (ops : List (Char × Int × Int))
    (hinit : initialize_sim g = some sim0)
    (hrun : simulate_accesses sim0 stat ops = some (sim, stat1)) :
    (∀ c_set ∈ sim.sets,
      (∀ l ∈ c_set, l.valid = true → 1 ≤ l.last_used) ∧
      (∀ (i j : Nat) (li lj : line), c_set[i]? = some li → c_set[j]? = some lj →
        li.valid = true → lj.valid = true → i ≠ j → li.last_used ≠ lj.last_used) ∧
      (∀ (i : Nat) (victim : line), (∀ l ∈ c_set, l.valid = true) →
        find_lru c_set = some i → c_set[i]? = some victim →
        ∀ (j : Nat) (l : line), j ≠ i → c_set[j]? = some l →
          victim.last_used < l.last_used)) ∧
    (∀ nset tag : Int, 0 ≤ nset → nset < sim.sets.length → 1 ≤ g.E →
      ∃ ret sim1 c1 i l, load sim nset tag = some (ret, sim1) ∧
        sim1.sets[nset.toNat]? = some c1 ∧ c1[i]? = some l ∧
        l.valid = true ∧ l.tag = tag ∧
        ∀ (j : Nat) (l2 : line), j ≠ i → c1[j]? = some l2 →
          l2.last_used < l.last_used ∧ ¬ (l2.valid = true ∧ l2.tag = tag)) := by
  obtain ⟨hE0, hzero⟩ := initialize_sim_inv g sim0 hinit
  have h0 : ∀ c_set ∈ sim0.sets, recency_inv c_set ∧ c_set.length = g.E.toNat := by
    intro c hc
    rw [hzero c hc]
    exact ⟨recency_inv_zeroed _, List.length_replicate _ _⟩
  have hinv : ∀ c_set ∈ sim.sets, recency_inv c_set ∧ c_set.length = g.E.toNat :=
    simulate_accesses_preserves
      (fun s => ∀ c_set ∈ s.sets, recency_inv c_set ∧ c_set.length = g.E.toNat)
      (fun s s1 nset tag ret hp hl => load_keeps_inv g.E.toNat s s1 nset tag ret hp hl)
      ops sim0 sim stat stat1 h0 hrun
  constructor
  · intro c_set hc
    obtain ⟨⟨h1, _, hpair⟩, _⟩ := hinv c_set hc
    refine ⟨h1, ?_, ?_⟩
    · intro i j li lj hi hj hvi hvj hne he
      exact hne (hpair i j li lj hi hj hvi hvj (Or.inl he))
    · intro i victim hfull hlru hi j l hji hj
      have hE : 1 ≤ c_set.length := by
        have := lt_length_of_getElem? c_set i victim hi
        omega
      obtain ⟨i2, v2, hl2, hi2, hmin, _⟩ := find_lru_spec c_set hE hfull
      rw [hlru] at hl2
      have hii : i = i2 := Option.some.inj hl2
      subst hii
      rw [hi] at hi2
      have hvv : victim = v2 := Option.some.inj hi2
      subst hvv
      have hlm : l ∈ c_set := mem_of_getElem? c_set j l hj
      have hle := hmin l hlm
      have hne : victim.last_used ≠ l.last_used := by
        intro he
        exact hji (hpair i j victim l hi hj
          (hfull victim (mem_of_getElem? c_set i victim hi)) (hfull l hlm) (Or.inl he)).symm
      omega
  · intro nset tag hn hlt hE
    have hi : nset.toNat < sim.sets.length := by omega
    have hset : sim.sets[nset.toNat]? = some sim.sets[nset.toNat] :=
      List.getElem?_eq_getElem hi
    obtain ⟨hrec, hlen⟩ := hinv _ (List.getElem_mem hi)
    obtain ⟨ret, sim1, hload, _⟩ :=
      load_defined sim nset tag _ hn hset (by rw [hlen]; omega)
    obtain ⟨c0, lines, _, hc0, hls, he⟩ := load_inv sim sim1 nset tag ret hload
    have hcc : c0 = sim.sets[nset.toNat] := by
      rw [hset] at hc0
      exact (Option.some.inj hc0).symm
    subst hcc
    obtain ⟨k, x, _, hxk, hxv, hxt, _, hoth⟩ :=
      load_set_top _ lines tag ret hrec hls
    refine ⟨ret, sim1, lines, k, x, hload, ?_, hxk, hxv, hxt, ?_⟩
    · rw [he]
      exact sets_after_set sim _ _ _ hset
    · intro j l2 hj hl2
      exact (hoth j l2 hj hl2).2

/-- Instance of C18: the state reached on the geometry `s = 2, E = 1, b = 4` by a
load of tag 0 and a modify of tag 64 in set 1. -/
theorem recency_strictly_increasing_witness :
    (∀ c_set ∈ used_2_1_4.sets,
      (∀ l ∈ c_set, l.valid = true → 1 ≤ l.last_used) ∧
      (∀ (i j : Nat) (li lj : line), c_set[i]? = some li → c_set[j]? = some lj →
        li.valid = true → lj.valid = true → i ≠ j → li.last_used ≠ lj.last_used) ∧
      (∀ (i : Nat) (victim : line), (∀ l ∈ c_set, l.valid = true) →
        find_lru c_set = some i → c_set[i]? = some victim →
        ∀ (j : Nat) (l : line), j ≠ i → c_set[j]? = some l →
          victim.last_used < l.last_used)) ∧
    (∀ nset tag : Int, 0 ≤ nset → nset < used_2_1_4.sets.length →
      1 ≤ ({ sets := [], E := 1, s := 2, b := 4 } : csim).E →
      ∃ ret sim1 c1 i l, load used_2_1_4 nset tag = some (ret, sim1) ∧
        sim1.sets[nset.toNat]? = some c1 ∧ c1[i]? = some l ∧
        l.valid = true ∧ l.tag = tag ∧
        ∀ (j : Nat) (l2 : line), j ≠ i → c1[j]? = some l2 →
          l2.last_used < l.last_used ∧ ¬ (l2.valid = true ∧ l2.tag = tag)) :=
  recency_strictly_increasing { sets := [], E := 1, s := 2, b := 4 } fresh_2_1_4 used_2_1_4
    zero_status { cs := MISSEVICTIONHIT, verbose := 0, hit := 1, miss := 2, evictions := 1 }
    [('L', 1, 0), ('M', 1, 64)] (by decide) (by decide)

/-! ## Statistics along a trace -/

theorem initialize_sim_eq (sets0 : List (List line)) (s E b : Nat) (hs : 1 ≤ s)
    (hs30 : s ≤ 30) :
    initialize_sim { sets := sets0, E := E, s := s, b := b } =
      some { sets := List.replicate (2 ^ s)
               (List.replicate E { valid := false, tag := 0, last_used := 0 }),
             E := E, s := s, b := b } := by
  unfold initialize_sim
  rw [if_pos (by constructor <;> [skip; constructor] <;> simp <;> omega)]
  have h1 : ((s : Int) - 1).toNat = s - 1 := by omega
  have h2 : 2 <<< (s - 1) = 2 ^ s := by
    rw [Nat.shiftLeft_eq, ← Nat.pow_succ']
    congr 1
    omega
  simp only [h1, h2, Int.toNat_ofNat]

/-- One record `L`, `S` or `M` on a cache of `2^s` sets of `E ≥ 1` lines: the step
is defined, keeps the geometry, and moves the counters in step with the number of
valid lines. -/
theorem simulate_step_counts (s E b : Nat) (hs : 1 ≤ s) (hs30 : s ≤ 30) (hb : 1 ≤ b)
    (hsb : s + b ≤ 63) (hE : 1 ≤ E) (sim : csim) (stat : status) (op : Char) (addr : Nat)
    (size : Int) (hop : op = 'L' ∨ op = 'S' ∨ op = 'M')
    (hg : sim.s = s ∧ sim.b = b ∧ sim.sets.length = 2 ^ s ∧
      ∀ c_set ∈ sim.sets, c_set.length = E) :
    ∃ sim1 stat1, simulate_step sim stat (trace_line.access op addr size) = some (sim1, stat1) ∧
      (sim1.s = s ∧ sim1.b = b ∧ sim1.sets.length = 2 ^ s ∧
        ∀ c_set ∈ sim1.sets, c_set.length = E) ∧
      stat1.miss - stat1.evictions - (valid_total sim1.sets : Int) =
        stat.miss - stat.evictions - (valid_total sim.sets : Int) ∧
      stat1.hit + stat1.miss = stat.hit + stat.miss + (if op = 'M' then 2 else 1) := by
  obtain ⟨hgs, hgb, hglen, hgE⟩ := hg
  have hdec := parse_input_eq addr s b hs hb hsb
  have hlt : ((addr % 2 ^ 64) >>> b) &&& (2 ^ s - 1) < 2 ^ s :=
    Nat.and_lt_two_pow _ (Nat.sub_lt (Nat.two_pow_pos s) (by norm_num))
  have h31 : ((addr % 2 ^ 64) >>> b) &&& (2 ^ s - 1) < 2 ^ 31 :=
    lt_of_lt_of_le hlt (Nat.pow_le_pow_right (by norm_num) (by omega))
  rw [to_int_of_lt _ h31] at hdec
  have hstep : simulate_step sim stat (trace_line.access op addr size) =
      simulate_access sim stat op
        ((((addr % 2 ^ 64) >>> b) &&& (2 ^ s - 1) : Nat) : Int)
        (to_int (((addr % 2 ^ 64) >>> (b + s)) <<< (b + s))) := by
    simp only [simulate_step, hgs, hgb, hdec]
  have hE1 : ∀ c_set ∈ sim.sets, 1 ≤ c_set.length := fun c hc => by rw [hgE c hc]; exact hE
  obtain ⟨sim1, stat1, hacc⟩ := simulate_access_defined sim stat op
    ((((addr % 2 ^ 64) >>> b) &&& (2 ^ s - 1) : Nat) : Int)
    (to_int (((addr % 2 ^ 64) >>> (b + s)) <<< (b + s)))
    (Int.ofNat_nonneg _) (by rw [hglen]; exact_mod_cast hlt) hE1
  rcases simulate_access_inv sim sim1 stat stat1 op _ _ hacc with
    ⟨_, _, h1, h2, h3⟩ | ⟨ret, hload, hstat⟩
  · rcases hop with h | h | h
    · exact absurd h h1
    · exact absurd h h3
    · exact absurd h h2
  · obtain ⟨_, hs1, hb1, hmap⟩ := load_shape sim sim1 _ _ ret hload
    obtain ⟨hlen1, hall1⟩ := lengths_of_map_eq sim.sets sim1.sets hmap
    have hvt := load_valid_total sim sim1 _ _ ret hload
    refine ⟨sim1, stat1, hstep.trans hacc,
      ⟨hs1.trans hgs, hb1.trans hgb, hlen1.trans hglen, hall1 (fun n => n = E) hgE⟩, ?_⟩
    rcases hstat with ⟨hLS, hst⟩ | ⟨hM, hst⟩
    · have hne : op ≠ 'M' := by
        rcases hLS with h | h <;> rw [h] <;> decide
      rw [if_neg hne]
      rcases hvt with ⟨hr, hv⟩ | ⟨hr, hv⟩ | ⟨hr, hv⟩
      · subst hr
        rw [hst, hv]
        simp only [get_status]
        constructor <;> first | trivial | ring
      · subst hr
        rw [hst, hv]
        simp only [get_status]
        push_cast
        constructor <;> first | trivial | ring
      · subst hr
        rw [hst, hv]
        simp only [get_status]
        constructor <;> first | trivial | ring
    · rw [if_pos hM]
      rcases hvt with ⟨hr, hv⟩ | ⟨hr, hv⟩ | ⟨hr, hv⟩
      · subst hr
        rcases hst with ⟨_, hst⟩ | ⟨hc, _⟩ | ⟨hc, _⟩
        · rw [hst, hv]
          simp only [get_status]
          constructor <;> first | trivial | ring
        · exact absurd hc (by decide)
        · exact absurd hc (by decide)
      · subst hr
        rcases hst with ⟨hc, _⟩ | ⟨_, hst⟩ | ⟨hc, _⟩
        · exact absurd hc (by decide)
        · rw [hst, hv]
          simp only [get_status]
          push_cast
          constructor <;> first | trivial | ring
        · exact absurd hc (by decide)
      · subst hr
        rcases hst with ⟨hc, _⟩ | ⟨hc, _⟩ | ⟨_, hst⟩
        · exact absurd hc (by decide)
        · exact absurd hc (by decide)
        · rw [hst, hv]
          simp only [get_status]
          constructor <;> first | trivial | ring

/-- A trace of `L`, `S` and `M` records on a cache of `2^s` sets of `E ≥ 1` lines: the
run is defined, and the counters move in step with the number of valid lines and
with the number of records of each kind. -/
theorem simulate_counts (s E b : Nat) (hs : 1 ≤ s) (hs30 : s ≤ 30) (hb : 1 ≤ b)
    (hsb : s + b ≤ 63) (hE : 1 ≤ E) (trace : List trace_line) :
    ∀ (sim : csim) (stat : status),
      (sim.s = s ∧ sim.b = b ∧ sim.sets.length = 2 ^ s ∧
        ∀ c_set ∈ sim.sets, c_set.length = E) →
      (∀ r ∈ trace, ∃ op addr size, r = trace_line.access op addr size ∧
        (op = 'L' ∨ op = 'S' ∨ op = 'M')) →
      ∃ sim1 stat1, simulate sim stat trace = some (sim1, stat1) ∧
        (sim1.s = s ∧ sim1.b = b ∧ sim1.sets.length = 2 ^ s ∧
          ∀ c_set ∈ sim1.sets, c_set.length = E) ∧
        stat1.miss - stat1.evictions - (valid_total sim1.sets : Int) =
          stat.miss - stat.evictions - (valid_total sim.sets : Int) ∧
        stat1.hit + stat1.miss = stat.hit + stat.miss +
          ((op_count 'L' trace + op_count 'S' trace + 2 * op_count 'M' trace : Nat) : Int) := by
  induction trace with
  | nil =>
    intro sim stat hg _
    exact ⟨sim, stat, rfl, hg, rfl, by simp [op_count]⟩
  | cons r rest ih =>
    intro sim stat hg hops
    obtain ⟨op, addr, size, hr, hop⟩ := hops r (List.mem_cons_self _ _)
    subst hr
    obtain ⟨simA, statA, hA, hgA, hvA, hcA⟩ :=
      simulate_step_counts s E b hs hs30 hb hsb hE sim stat op addr size hop hg
    obtain ⟨sim1, stat1, hrun, hg1, hv1, hc1⟩ :=
      ih simA statA hgA (fun r2 hr2 => hops r2 (List.mem_cons_of_mem _ hr2))
    refine ⟨sim1, stat1, ?_, hg1, hv1.trans hvA, ?_⟩
    · simp only [simulate, hA]
      exact hrun
    · rw [hc1, hcA]
      simp only [op_count]
      rcases hop with h | h | h <;> subst h <;> simp <;> ring

/-- C20. For every geometry with `1 ≤ s ≤ 30`, `1 ≤ b`, `s + b ≤ 63` and `E ≥ 1`,
and every trace of `L`, `S` and `M` records run from the cache built by
`initialize_sim` with zeroed statistics: after every record (after the first
`k` records, for every `k`) the run is defined, `misses - evictions` is the
number of valid lines of the cache, so `evictions ≤ misses` and
`misses - evictions ≤ 2^s * E`, and `hits + misses` is the number of `L`
records plus the number of `S` records plus twice the number of `M` records
processed so far. -/
theorem statistics_consistent (s E b : Nat) (sets0 : List (List line))
    (trace : List trace_line) (hs : 1 ≤ s) (hs30 : s ≤ 30) (hb : 1 ≤ b) (hsb : s + b ≤ 63)
    (hE : 1 ≤ E)
    (hops : ∀ r ∈ trace, ∃ op addr size, r = trace_line.access op addr size ∧
      (op = 'L' ∨ op = 'S' ∨ op = 'M')) :
    ∃ sim0, initialize_sim { sets := sets0, E := E, s := s, b := b } = some sim0 ∧
      ∀ k : Nat, ∃ sim stat, simulate sim0 zero_status (trace.take k) = some (sim, stat) ∧
        stat.miss - stat.evictions = (valid_total sim.sets : Int) ∧
        stat.evictions ≤ stat.miss ∧
        stat.miss - stat.evictions ≤ ((2 ^ s * E : Nat) : Int) ∧
        stat.hit + stat.miss =
          ((op_count 'L' (trace.take k) + op_count 'S' (trace.take k) +
            2 * op_count 'M' (trace.take k) : Nat) : Int) := by
  refine ⟨_, initialize_sim_eq sets0 s E b hs hs30, ?_⟩
  intro k
  have hg : ∀ c_set ∈ List.replicate (2 ^ s)
      (List.replicate E ({ valid := false, tag := 0, last_used := 0 } : line)),
      c_set.length = E := by
    intro c hc
    rw [(List.mem_replicate.mp hc).2, List.length_replicate]
  obtain ⟨sim, stat, hrun, ⟨_, _, hlen, hall⟩, hv, hc⟩ :=
    simulate_counts s E b hs hs30 hb hsb hE (trace.take k)
      { sets := List.replicate (2 ^ s)
          (List.replicate E { valid := false, tag := 0, last_used := 0 }),
        E := E, s := s, b := b } zero_status
      ⟨rfl, rfl, List.length_replicate _ _, hg⟩
      (fun r hr => hops r (List.mem_of_mem_take hr))
  have hz : valid_total (List.replicate (2 ^ s)
      (List.replicate E ({ valid := false, tag := 0, last_used := 0 } : line))) = 0 :=
    valid_total_zeroed _ _
  have hle := valid_total_le sim.sets E hall
  rw [hlen] at hle
  simp only [hz, zero_status, Nat.cast_zero, sub_zero, zero_add] at hv hc
  refine ⟨sim, stat, hrun, by omega, by omega, ?_, hc⟩
  have : (valid_total sim.sets : Int) ≤ ((2 ^ s * E : Nat) : Int) := by exact_mod_cast hle
  omega

/-- Instance of C20: the trace `L 10,1`, `M 20,1`, `S 10,1` with `s = 2`, `E = 1`,
`b = 4`. -/
theorem statistics_consistent_witness :
    ∃ sim0, initialize_sim { sets := [], E := (1 : Nat), s := (2 : Nat), b := (4 : Nat) } =
        some sim0 ∧
      ∀ k : Nat, ∃ sim stat,
        simulate sim0 zero_status
          ([trace_line.access 'L' 0x10 1, trace_line.access 'M' 0x20 1,
            trace_line.access 'S' 0x10 1].take k) = some (sim, stat) ∧
        stat.miss - stat.evictions = (valid_total sim.sets : Int) ∧
        stat.evictions ≤ stat.miss ∧
        stat.miss - stat.evictions ≤ ((2 ^ 2 * 1 : Nat) : Int) ∧
        stat.hit + stat.miss =
          ((op_count 'L' ([trace_line.access 'L' 0x10 1, trace_line.access 'M' 0x20 1,
              trace_line.access 'S' 0x10 1].take k) +
            op_count 'S' ([trace_line.access 'L' 0x10 1, trace_line.access 'M' 0x20 1,
              trace_line.access 'S' 0x10 1].take k) +
            2 * op_count 'M' ([trace_line.access 'L' 0x10 1, trace_line.access 'M' 0x20 1,
              trace_line.access 'S' 0x10 1].take k) : Nat) : Int) :=
  statistics_consistent 2 1 4 []
    [trace_line.access 'L' 0x10 1, trace_line.access 'M' 0x20 1, trace_line.access 'S' 0x10 1]
    (by decide) (by decide) (by decide) (by decide) (by decide)
    (by
      intro r hr
      simp only [List.mem_cons, List.mem_singleton, List.not_mem_nil, or_false] at hr
      rcases hr with h | h | h
      · exact ⟨_, _, _, h, Or.inl rfl⟩
      · exact ⟨_, _, _, h, Or.inr (Or.inr rfl)⟩
      · exact ⟨_, _, _, h, Or.inr (Or.inl rfl)⟩)

/-! ## The worked example, and the geometries with `s = 0` -/

/-- C14. With `s = 2`, `E = 1`, `b = 4`: `initialize_sim` builds four sets of one
zeroed line; `parse_input` maps `0x10` to tag 0, set 1, offset 0 and `0x20` to
tag 0, set 2, offset 0; the trace `L 10,1`, `L 20,1`, `L 10,1` gives the
outcomes MISS, MISS, HIT and ends with hits = 1, misses = 2, evictions = 0. -/
theorem end_to_end_example :
    initialize_sim { sets := [], E := 1, s := 2, b := 4 } = some fresh_2_1_4 ∧
      parse_input 0x10 2 4 = some (0, 1, 0) ∧
      parse_input 0x20 2 4 = some (0, 2, 0) ∧
      (simulate fresh_2_1_4 zero_status [trace_line.access 'L' 0x10 1]).map
          (fun r => r.2.cs) = some MISS ∧
      (simulate fresh_2_1_4 zero_status
          [trace_line.access 'L' 0x10 1, trace_line.access 'L' 0x20 1]).map
          (fun r => r.2.cs) = some MISS ∧
      (simulate fresh_2_1_4 zero_status
          [trace_line.access 'L' 0x10 1, trace_line.access 'L' 0x20 1,
            trace_line.access 'L' 0x10 1]).map (fun r => r.2) =
        some { cs := HIT, verbose := 0, hit := 1, miss := 2, evictions := 0 } := by
  decide

/-- C15, evaluated on the code. For `s = 0` the count of the shift
`2 << (s - 1)` is -1, so `initialize_sim` has no defined result, where the claim
asks for one set; for `s = 1`, `E = 1` it builds the two sets of one zeroed line
the claim describes. -/
theorem initialize_sim_zero_bits :
    initialize_sim { sets := [], E := 1, s := 0, b := 4 } = none ∧
      initialize_sim { sets := [], E := 1, s := 1, b := 4 } =
        some { sets := [[{ valid := false, tag := 0, last_used := 0 }],
                        [{ valid := false, tag := 0, last_used := 0 }]],
               E := 1, s := 1, b := 4 } := by
  decide

/-- C16, evaluated on the code. For `s = 0`, `b = 0`, `E = 1` neither
`initialize_sim` nor `parse_input` has a defined result: the first shifts by
-1, the second by 64, whatever the address. -/
theorem zero_geometry_undefined :
    initialize_sim { sets := [], E := 1, s := 0, b := 0 } = none ∧
      ∀ addr : Nat, parse_input addr 0 0 = none := by
  refine ⟨by decide, ?_⟩
  intro addr
  rfl

/-- C19, evaluated on the code. With `s = 2`, `b = 4` the addresses
`0x7ff000398` and `0x6ff000398` lie in different blocks (their bits above
`b + s` differ) and in the same set, yet `parse_input` stores the same `int`
tag for both; on the fresh cache the trace `L 7ff000398,8`, `L 6ff000398,8`
ends with one miss and one hit. -/
theorem tag_truncation_false_hit :
    parse_input 0x7ff000398 2 4 = some (-16776320, 1, 8) ∧
      parse_input 0x6ff000398 2 4 = some (-16776320, 1, 8) ∧
      (0x7ff000398 : Nat) >>> (4 + 2) ≠ (0x6ff000398 : Nat) >>> (4 + 2) ∧
      (simulate fresh_2_1_4 zero_status
          [trace_line.access 'L' 0x7ff000398 8, trace_line.access 'L' 0x6ff000398 8]).map
          (fun r => r.2) =
        some { cs := HIT, verbose := 0, hit := 1, miss := 1, evictions := 0 } := by
  decide

end Csim
